import Mathlib

set_option maxRecDepth 8000

/-!
Shallow embedding of the Order-Management service (src/crud.py, src/models.py,
src/schemas.py).

The relational state (MariaDB via SQLAlchemy) is modelled as first-order
association lists keyed by integer ids; the MeiliSearch projection is a second
association list of documents.  Python `float` prices become `Rat`, integer
columns become `Int`/`Nat`.  A crud operation either returns the new committed
state or an error; the Python code raises every error before its session is
committed, so an error leaves the caller's state unchanged, which the
`Except`-shaped result captures directly.  Python dicts are modelled by
`dictInsert`/`dictOf`, which reproduce insertion-order, replace-in-place,
last-value-wins semantics.
-/

/-- `models.Product`: one row of the `products` table (id is the key under
which the row is stored). -/
structure Product where
  name : String
  description : Option String
  price : Rat
  stock : Int
deriving DecidableEq, Repr

/-- `models.Order`: one row of the `orders` table.  `created_at` is kept as
epoch seconds, which is also the form the projection stores. -/
structure OrderRow where
  id : Nat
  name : String
  description : Option String
  created_at : Nat
  total_amount : Rat
deriving DecidableEq, Repr

/-- `models.OrderProduct`: one row of the `order_products` association
table. -/
structure OrderLine where
  order_id : Nat
  product_id : Nat
  quantity : Int
deriving DecidableEq, Repr

/-- `schemas.OrderProductBase`: one requested line.  The schema declares
`quantity : int` with no further constraint. -/
structure OrderProductBase where
  product_id : Nat
  quantity : Int
deriving DecidableEq, Repr

/-- `schemas.OrderCreate` / the parts of `OrderBase` that the crud functions
read: `name`, `description` and `products`. -/
structure OrderBase where
  name : String
  description : Option String
  products : List OrderProductBase
deriving DecidableEq, Repr

/-- One embedded product snapshot inside a projection document
(`index_order_in_meilisearch`, the `products` list entries). -/
structure DocLine where
  name : String
  description : Option String
  price : Rat
  quantity : Int
deriving DecidableEq, Repr

/-- One MeiliSearch document, as built by `index_order_in_meilisearch`. -/
structure Doc where
  id : Nat
  name : String
  description : Option String
  created_at : Nat
  total_amount : Rat
  products : List DocLine
deriving DecidableEq, Repr

/-- The errors the crud layer raises: `ValueError`/404 for a missing
product or order, `ValueError`/400 for insufficient stock, and the
`AttributeError` crash in `crud_update_order`'s total recomputation when a
line's product row is absent (the session is rolled back, so no state
change survives it). -/
inductive CrudError where
  | productNotFound (pid : Nat)
  | insufficientStock (pid : Nat)
  | orderNotFound
  | attributeCrash
deriving DecidableEq, Repr

/-- The whole observable state: the three relational tables plus the
auto-increment counter and the MeiliSearch `orders` index. -/
structure DB where
  products : List (Nat × Product)
  orders : List (Nat × OrderRow)
  orderLines : List OrderLine
  nextOrderId : Nat
  index : List (Nat × Doc)
deriving DecidableEq, Repr

/-- First-match association lookup (the `db.query(...).filter(id == k).first()`
pattern). -/
def aget {α : Type} : List (Nat × α) → Nat → Option α
  | [], _ => none
  | kv :: l, k => if kv.1 = k then some kv.2 else aget l k

/-- `exceptOk e` is `true` exactly when `e` is a success. -/
def exceptOk {ε α : Type} : Except ε α → Bool
  | .ok _ => true
  | .error _ => false

/-- Add `d` to the stock of the product stored under `k`; if no such row
exists nothing changes (this is exactly the `if product:` guard of
`crud_delete_order`; on the other call sites the row is known to exist). -/
def adjust : List (Nat × Product) → Nat → Int → List (Nat × Product)
  | [], _, _ => []
  | kv :: l, k, d =>
    (if kv.1 = k then (kv.1, { kv.2 with stock := kv.2.stock + d }) else kv) :: adjust l k d

/-- Apply a list of signed stock deltas left to right. -/
def applyDeltas (ps : List (Nat × Product)) (ds : List (Nat × Int)) : List (Nat × Product) :=
  ds.foldl (fun a kv => adjust a kv.1 kv.2) ps

/-- Python `dict.__setitem__`: replace in place if the key is present,
otherwise append at the end. -/
def dictInsert : List (Nat × Int) → Nat → Int → List (Nat × Int)
  | [], k, v => [(k, v)]
  | kv :: d, k, v => if kv.1 = k then (k, v) :: d else kv :: dictInsert d k v

/-- Python dict built from a list of key-value pairs (dict comprehension):
insertion order, last value wins. -/
def dictOf (l : List (Nat × Int)) : List (Nat × Int) :=
  l.foldl (fun d kv => dictInsert d kv.1 kv.2) []

/-- The value the last pair of `l` with key `k` carries, if any. -/
def lastVal : List (Nat × Int) → Nat → Option Int
  | [], _ => none
  | kv :: l, k =>
    match lastVal l k with
    | some v => some v
    | none => if kv.1 = k then some kv.2 else none

/-- Sum of the values of all pairs of `ds` whose key is `k`. -/
def sumAt : List (Nat × Int) → Nat → Int
  | [], _ => 0
  | kv :: l, k => (if kv.1 = k then kv.2 else 0) + sumAt l k

/-- The `order_products` rows belonging to order `oid`
(`order.products` relationship / the `filter(OrderProduct.order_id == oid)`
queries). -/
def linesFor (s : DB) (oid : Nat) : List OrderLine :=
  s.orderLines.filter fun l => l.order_id = oid

/-- Current stock of product `p`, with `0` for an absent row. -/
def stockOf (s : DB) (p : Nat) : Int :=
  ((aget s.products p).map Product.stock).getD 0

/-- Total quantity of product `p` held by order lines in `ls`. -/
def reservedIn : List OrderLine → Nat → Int
  | [], _ => 0
  | l :: ls, p => (if l.product_id = p then l.quantity else 0) + reservedIn ls p

/-- Stock plus reserved quantity of product `p`: the conserved amount of the
spec's conservation law. -/
def provisioned (s : DB) (p : Nat) : Int :=
  stockOf s p + reservedIn s.orderLines p

/-- MeiliSearch upsert (`orders_index.add_documents` with an existing or new
document id). -/
def upsertDoc : List (Nat × Doc) → Nat → Doc → List (Nat × Doc)
  | [], k, v => [(k, v)]
  | kv :: d, k, v => if kv.1 = k then (k, v) :: d else kv :: upsertDoc d k v

/-- One `products` entry of the projection document: `op.product.name`,
`op.product.description`, `op.product.price`, `op.quantity`.  A missing
product row would make the Python code crash on `op.product`; that branch is
unreachable from the call sites, which only index orders whose lines were
just validated. -/
def docLineOf (s : DB) (l : OrderLine) : DocLine :=
  match aget s.products l.product_id with
  | some pr => ⟨pr.name, pr.description, pr.price, l.quantity⟩
  | none => ⟨"", none, 0, l.quantity⟩

/-- `index_order_in_meilisearch`: build the denormalized document for `row`
from the current state and upsert it into the `orders` index. -/
def index_order_in_meilisearch (s : DB) (row : OrderRow) : List (Nat × Doc) :=
  upsertDoc s.index row.id
    ⟨row.id, row.name, row.description, row.created_at, row.total_amount,
      (linesFor s row.id).map (docLineOf s)⟩

/-- The validation loop of `crud_create_order` (lines 37-53): per requested
line, look the product up, raise if it is missing or its stock is below the
requested quantity, and accumulate `price * quantity` into the total.  No
state is mutated during this loop. -/
def validateAll (s : DB) : List OrderProductBase → Except CrudError Rat
  | [] => .ok 0
  | i :: rest =>
    match aget s.products i.product_id with
    | none => .error (.productNotFound i.product_id)
    | some pr =>
      if pr.stock < i.quantity then .error (.insufficientStock i.product_id)
      else (validateAll s rest).map fun t => pr.price * (i.quantity : Rat) + t

/-- The rows inserted into `order_products` for order `oid` from request
`req`: one row per requested line, quantities copied verbatim. -/
def newLinesOf (oid : Nat) (req : OrderBase) : List OrderLine :=
  req.products.map fun i => ⟨oid, i.product_id, i.quantity⟩

/-- The relational part of the state committed by a successful
`crud_create_order`: stocks decremented by the requested quantities, the
order row and its lines appended, the counter advanced. -/
def createdCore (s : DB) (req : OrderBase) (ts : Nat) (total : Rat) : DB :=
  { s with
    products := applyDeltas s.products (req.products.map fun i => (i.product_id, -i.quantity))
    orders := s.orders ++ [(s.nextOrderId, ⟨s.nextOrderId, req.name, req.description, ts, total⟩)]
    orderLines := s.orderLines ++ newLinesOf s.nextOrderId req
    nextOrderId := s.nextOrderId + 1 }

/-- The state committed by a successful `crud_create_order`, after the
projection document has also been upserted. -/
def createdState (s : DB) (req : OrderBase) (ts : Nat) (total : Rat) : DB :=
  { createdCore s req ts total with
    index := index_order_in_meilisearch (createdCore s req ts total)
      ⟨s.nextOrderId, req.name, req.description, ts, total⟩ }

/-- `crud_create_order`: validate every line against the untouched stock,
then create the order row, decrement each line's stock, insert the lines,
commit, and index the order.  Every error is raised before anything is
committed, so an error result carries no state. -/
def crud_create_order (s : DB) (req : OrderBase) (ts : Nat) : Except CrudError (DB × Nat) :=
  match validateAll s req.products with
  | .error e => .error e
  | .ok total => .ok (createdState s req ts total, s.nextOrderId)

/-- First loop of the `stock_changes` computation of `crud_update_order`
(lines 89-96): for an existing product whose quantity changed, insert the
magnitude `|old - new|`; `stockChangesOf` folds this over the existing map
and then `scStep2` over the new map.  All stored magnitudes are unsigned;
the direction is recovered later from the two maps. -/
def scStep1 (nm : List (Nat × Int)) (d : List (Nat × Int)) (kv : Nat × Int) : List (Nat × Int) :=
  if (aget nm kv.1).getD 0 < kv.2 then dictInsert d kv.1 (kv.2 - (aget nm kv.1).getD 0)
  else if kv.2 < (aget nm kv.1).getD 0 then dictInsert d kv.1 ((aget nm kv.1).getD 0 - kv.2)
  else d

/-- Second loop of the `stock_changes` computation (lines 99-101). -/
def scStep2 (em : List (Nat × Int)) (d : List (Nat × Int)) (kv : Nat × Int) : List (Nat × Int) :=
  if (aget em kv.1).isSome then d else dictInsert d kv.1 kv.2

def stockChangesOf (em nm : List (Nat × Int)) : List (Nat × Int) :=
  nm.foldl (scStep2 em) (em.foldl (scStep1 nm) [])

/-- What `stockChangesOf` stores under key `k`, written directly: the
magnitude of the quantity change for a product of the existing map, the new
quantity for a product only in the new map, nothing otherwise. -/
def scSpec (em nm : List (Nat × Int)) (k : Nat) : Option Int :=
  match aget em k with
  | some o =>
    let n := (aget nm k).getD 0
    if n < o then some (o - n) else if o < n then some (n - o) else none
  | none => aget nm k

/-- The validation loop of `crud_update_order` (lines 104-119): every product
in `stock_changes` must exist, and when the stored magnitude is positive the
current stock must cover it — note the check runs for restock entries too,
because the stored magnitudes carry no sign. -/
def validateChanges (s : DB) : List (Nat × Int) → Except CrudError Unit
  | [] => .ok ()
  | kv :: rest =>
    match aget s.products kv.1 with
    | none => .error (.productNotFound kv.1)
    | some pr =>
      if 0 < kv.2 ∧ pr.stock < kv.2 then .error (.insufficientStock kv.1)
      else validateChanges s rest

/-- The sign restored at application time (line 124): a product present in
the existing map whose new quantity dropped is restocked (`+`), every other
entry is consumed (`-`). -/
def signFor (em nm : List (Nat × Int)) (k : Nat) : Bool :=
  match aget em k with
  | some o => decide ((aget nm k).getD 0 < o)
  | none => false

/-- One signed stock delta (lines 122-129): `+change` for a restock entry,
`-change` otherwise. -/
def signedDelta (em nm : List (Nat × Int)) (kv : Nat × Int) : Nat × Int :=
  (kv.1, if signFor em nm kv.1 then kv.2 else -kv.2)

/-- The total recomputation loop of `crud_update_order` (lines 135-139): per
new line, query the product and accumulate `price * quantity`.  A missing
row makes the Python code crash on `product.price`, which rolls the
uncommitted session back; `none` models that outcome. -/
def recomputeTotal (ps : List (Nat × Product)) : List OrderProductBase → Option Rat
  | [] => some 0
  | i :: rest =>
    match aget ps i.product_id with
    | none => none
    | some pr => (recomputeTotal ps rest).map fun t => pr.price * (i.quantity : Rat) + t

/-- The sum `recomputeTotal` produces when every product exists. -/
def reqTotal (ps : List (Nat × Product)) : List OrderProductBase → Rat
  | [] => 0
  | i :: rest =>
    (match aget ps i.product_id with
     | some pr => pr.price
     | none => 0) * (i.quantity : Rat) + reqTotal ps rest

/-- `existing_products_map` (line 81): the order's current lines as a
Python dict. -/
def emOf (s : DB) (oid : Nat) : List (Nat × Int) :=
  dictOf ((linesFor s oid).map fun l => (l.product_id, l.quantity))

/-- `new_products_map` (line 84): the requested lines as a Python dict. -/
def nmOf (req : OrderBase) : List (Nat × Int) :=
  dictOf (req.products.map fun i => (i.product_id, i.quantity))

/-- The `stock_changes` dict an update of order `oid` to `req` computes. -/
def scOf (s : DB) (oid : Nat) (req : OrderBase) : List (Nat × Int) :=
  stockChangesOf (emOf s oid) (nmOf req)

/-- The product table after the signed stock deltas of the update are
applied (lines 122-129). -/
def updProds (s : DB) (oid : Nat) (req : OrderBase) : List (Nat × Product) :=
  applyDeltas s.products ((scOf s oid req).map (signedDelta (emOf s oid) (nmOf req)))

/-- The state committed by a successful `crud_update_order`: stocks
reconciled, the order's line set replaced wholesale, the order row's name,
description and recomputed total stored, and the projection re-indexed. -/
def updRow (req : OrderBase) (row : OrderRow) (total : Rat) : OrderRow :=
  { row with name := req.name, description := req.description, total_amount := total }

def updatedCore (s : DB) (oid : Nat) (req : OrderBase) (row : OrderRow) (total : Rat) : DB :=
  { s with
    products := updProds s oid req
    orders := s.orders.map fun kv => if kv.1 = oid then (oid, updRow req row total) else kv
    orderLines := (s.orderLines.filter fun l => ¬ l.order_id = oid) ++ newLinesOf oid req }

def updatedState (s : DB) (oid : Nat) (req : OrderBase) (row : OrderRow) (total : Rat) : DB :=
  { updatedCore s oid req row total with
    index := index_order_in_meilisearch (updatedCore s oid req row total) (updRow req row total) }

/-- `crud_update_order`: look the order up, build the old and new
product-quantity dicts, compute `stock_changes`, validate it in full, apply
every signed delta, replace the order's lines wholesale, recompute the
total, update the order row, commit, and re-index.  Every failure is raised
before the commit, so an error result carries no state. -/
def crud_update_order (s : DB) (oid : Nat) (req : OrderBase) : Except CrudError DB :=
  match aget s.orders oid with
  | none => .error .orderNotFound
  | some row =>
    match validateChanges s (scOf s oid req) with
    | .error e => .error e
    | .ok _ =>
      match recomputeTotal (updProds s oid req) req.products with
      | none => .error .attributeCrash
      | some total => .ok (updatedState s oid req row total)

/-- The state committed by a successful `crud_delete_order`: every line of
the order whose product row still exists is restocked (a missing row is
skipped silently by the `if product:` guard), the lines and the order row
are deleted, and the projection document is removed. -/
def deletedState (s : DB) (oid : Nat) : DB :=
  { s with
    products := applyDeltas s.products ((linesFor s oid).map fun l => (l.product_id, l.quantity))
    orders := s.orders.filter fun kv => ¬ kv.1 = oid
    orderLines := s.orderLines.filter fun l => ¬ l.order_id = oid
    index := s.index.filter fun kv => ¬ kv.1 = oid }

/-- `crud_delete_order`: look the order up, restock, delete and
de-index. -/
def crud_delete_order (s : DB) (oid : Nat) : Except CrudError DB :=
  match aget s.orders oid with
  | none => .error .orderNotFound
  | some _ => .ok (deletedState s oid)

/-- `crud_get_order_by_id`: read the projection only; a missing document is
a 404 "Order not found". -/
def crud_get_order_by_id (s : DB) (oid : Nat) : Except CrudError Doc :=
  match aget s.index oid with
  | none => .error .orderNotFound
  | some d => .ok d

/-- The lock/stock events of `crud_create_order` in program order. -/
inductive LockEvent where
  | acquire (pid : Nat)
  | check_stock (pid : Nat)
  | release (pid : Nat)
  | decrement_stock (pid : Nat)
deriving DecidableEq, Repr

/-- Events of the validation loop of `crud_create_order` (lines 37-53): per
line the lock is acquired, the stock is checked, and the lock is released in
the `finally` block; a raised error stops the loop (after the release). -/
def create_order_events (s : DB) : List OrderProductBase → List LockEvent
  | [] => []
  | i :: rest =>
    [LockEvent.acquire i.product_id, LockEvent.check_stock i.product_id,
      LockEvent.release i.product_id] ++
      (match aget s.products i.product_id with
       | none => []
       | some pr => if pr.stock < i.quantity then [] else create_order_events s rest)

/-- Full event trace of `crud_create_order`: the validation loop's events
followed — only if validation succeeded — by the stock decrements of the
second loop (lines 60-65), which runs after every lock has been released. -/
def create_order_trace (s : DB) (req : OrderBase) : List LockEvent :=
  create_order_events s req.products ++
    (match validateAll s req.products with
     | .error _ => []
     | .ok _ => req.products.map fun i => LockEvent.decrement_stock i.product_id)

/-- A requested line that makes `crud_create_order` abort: its product is
missing or understocked. -/
def badLine (s : DB) (i : OrderProductBase) : Prop :=
  aget s.products i.product_id = none ∨
    ∃ pr, aget s.products i.product_id = some pr ∧ pr.stock < i.quantity

/-- A well-formed request: pairwise-distinct product ids and non-negative
quantities. -/
def WFReq (req : OrderBase) : Prop :=
  (req.products.map OrderProductBase.product_id).Nodup ∧
    ∀ i ∈ req.products, 0 ≤ i.quantity

/-- Well-formed state: every line references an existing product, has
non-negative quantity and belongs to an id below the auto-increment counter;
order ids stay below the counter; no order holds two lines for one product;
stocks are non-negative; product and order keys are duplicate-free. -/
def WF (s : DB) : Prop :=
  (∀ l ∈ s.orderLines,
      (aget s.products l.product_id).isSome = true ∧ 0 ≤ l.quantity ∧
        l.order_id < s.nextOrderId) ∧
    (∀ kv ∈ s.orders, kv.1 < s.nextOrderId) ∧
    s.orderLines.Pairwise
      (fun a b => a.order_id = b.order_id → ¬ a.product_id = b.product_id) ∧
    (∀ kv ∈ s.products, 0 ≤ kv.2.stock) ∧
    (s.products.map Prod.fst).Nodup ∧
    (s.orders.map Prod.fst).Nodup

/-- One executed operation, restricted to well-formed requests. -/
inductive Step : DB → DB → Prop
  | create {s s' : DB} {req : OrderBase} {ts oid : Nat} :
      WFReq req → crud_create_order s req ts = .ok (s', oid) → Step s s'
  | update {s s' : DB} {oid : Nat} {req : OrderBase} :
      WFReq req → crud_update_order s oid req = .ok s' → Step s s'
  | delete {s s' : DB} {oid : Nat} :
      crud_delete_order s oid = .ok s' → Step s s'

/-- Any finite sequence of create/update/delete operations. -/
def StepSeq : DB → DB → Prop :=
  Relation.ReflTransGen Step

/-- The projection document stored for `oid` agrees field by field with the
ledger's current order row, and its per-line snapshots agree with the
ledger's current lines and product rows. -/
def projMatches (s : DB) (oid : Nat) : Prop :=
  match aget s.index oid, aget s.orders oid with
  | some d, some row =>
    d.name = row.name ∧ d.description = row.description ∧
      d.total_amount = row.total_amount ∧ d.created_at = row.created_at ∧
      d.products = (linesFor s oid).map (docLineOf s)
  | _, _ => False

/-- The quantity the new line set of `req` assigns to product `p`, absence
read as `0` (the `new_products_map.get(p, 0)` of the reconciliation). -/
def newQof (req : OrderBase) (p : Nat) : Int :=
  (aget (nmOf req) p).getD 0

/-- The quantity order `oid`'s current line set assigns to product `p`,
absence read as `0`. -/
def oldQof (s : DB) (oid : Nat) (p : Nat) : Int :=
  (aget (emOf s oid) p).getD 0

/-- The committed state and new order id of a `crud_create_order` call, or
the unchanged input state (and id 0) on error. -/
def createRes (s : DB) (req : OrderBase) (ts : Nat) : DB × Nat :=
  match crud_create_order s req ts with
  | .ok p => p
  | .error _ => (s, 0)

/-- The committed state of a `crud_update_order` call, or the unchanged
input state on error. -/
def updateRes (s : DB) (oid : Nat) (req : OrderBase) : DB :=
  match crud_update_order s oid req with
  | .ok s2 => s2
  | .error _ => s

/-- The committed state of a `crud_delete_order` call, or the unchanged
input state on error. -/
def deleteRes (s : DB) (oid : Nat) : DB :=
  match crud_delete_order s oid with
  | .ok s2 => s2
  | .error _ => s

/-- One product (id 1, price 10, stock 4), no orders. -/
def c1S : DB := ⟨[(1, ⟨"A", none, 10, 4⟩)], [], [], 1, []⟩

/-- A request listing the same product twice, 3 units each. -/
def c1Req : OrderBase := ⟨"o", none, [⟨1, 3⟩, ⟨1, 3⟩]⟩

def c1Bad : DB := (createRes c1S c1Req 0).1

/-- One product (id 1, price 10, stock 5), no orders. -/
def cwS : DB := ⟨[(1, ⟨"A", none, 10, 5⟩)], [], [], 1, []⟩

def cwReq : OrderBase := ⟨"o", none, [⟨1, 2⟩]⟩

def cwRes : DB := (createRes cwS cwReq 0).1

/-- Products 1, 2, 3 with stocks 7, 8, 10 and one order (id 1) holding
lines product 1 x3 and product 2 x2 — the spec's delta example. -/
def c2S : DB :=
  ⟨[(1, ⟨"A", none, 10, 7⟩), (2, ⟨"B", none, 10, 8⟩), (3, ⟨"C", none, 10, 10⟩)],
    [(1, ⟨1, "o", none, 0, 50⟩)], [⟨1, 1, 3⟩, ⟨1, 2, 2⟩], 2, []⟩

def c2Req : OrderBase := ⟨"o", none, [⟨1, 1⟩, ⟨2, 5⟩, ⟨3, 2⟩]⟩

def c2Res : DB := updateRes c2S 1 c2Req

/-- One product with stock 5, to be fully consumed by an order. -/
def c3S : DB := ⟨[(1, ⟨"A", none, 10, 5⟩)], [], [], 1, []⟩

def c3Req1 : OrderBase := ⟨"o", none, [⟨1, 5⟩]⟩

/-- A pure reduction of the only line of the order, 5 units down to 1. -/
def c3Req2 : OrderBase := ⟨"o", none, [⟨1, 1⟩]⟩

def c3Mid : DB := (createRes c3S c3Req1 0).1

def c4S : DB := ⟨[(1, ⟨"A", none, 10, 5⟩)], [], [], 1, []⟩

def c4Req : OrderBase := ⟨"o", none, [⟨1, 2⟩]⟩

/-- Products 1 (stock 5) and 2 (stock 1): product 2 cannot cover 5 units. -/
def c5S : DB := ⟨[(1, ⟨"A", none, 10, 5⟩), (2, ⟨"B", none, 10, 1⟩)], [], [], 1, []⟩

def c5Req : OrderBase := ⟨"o", none, [⟨1, 2⟩, ⟨2, 5⟩]⟩

def c7S : DB := ⟨[(1, ⟨"A", none, 10, 5⟩), (2, ⟨"B", none, 10, 7⟩)], [], [], 1, []⟩

def c7Req : OrderBase := ⟨"o", none, [⟨1, 2⟩, ⟨2, 3⟩]⟩

def c7s1 : DB := (createRes c7S c7Req 0).1

def c7s2 : DB := deleteRes c7s1 1

/-- The identical line set of the order stored in `c2S`. -/
def c8Req : OrderBase := ⟨"o2", none, [⟨1, 3⟩, ⟨2, 2⟩]⟩

def c8Res : DB := updateRes c2S 1 c8Req

def c9S : DB := ⟨[(1, ⟨"A", none, 10, 4⟩)], [], [], 1, []⟩

/-- A request with a zero-quantity line, which nothing in the code
rejects. -/
def c9Req : OrderBase := ⟨"o", none, [⟨1, 0⟩]⟩

def c9Bad : DB := (createRes c9S c9Req 0).1

/-- Order 1 holds a line for product 1 (present, stock 5) and a line for
product 9, for which no product row exists. -/
def c10S : DB :=
  ⟨[(1, ⟨"A", none, 10, 5⟩)], [(1, ⟨1, "o", none, 0, 50⟩)],
    [⟨1, 1, 2⟩, ⟨1, 9, 3⟩], 2, [(1, ⟨1, "o", none, 0, 50, []⟩)]⟩

deriving instance DecidableEq for Except

instance (s : DB) : Decidable (WF s) := by
  unfold WF
  infer_instance

instance (req : OrderBase) : Decidable (WFReq req) := by
  unfold WFReq
  infer_instance

theorem aget_adjust (ps : List (Nat × Product)) (k : Nat) (d : Int) (j : Nat) :
    aget (adjust ps k d) j =
      if j = k then (aget ps k).map (fun pr => { pr with stock := pr.stock + d })
      else aget ps j := by
  induction ps with
  | nil => by_cases h : j = k <;> simp [adjust, aget, h]
  | cons kv l ih =>
    by_cases hj : j = k
    · subst hj
      by_cases hk : kv.1 = j
      · simp [adjust, aget, hk]
      · simp [adjust, aget, hk, ih]
    · by_cases hk : kv.1 = k
      · have h4 : ¬ k = j := fun hx => hj hx.symm
        have hkj : ¬ kv.1 = j := fun hx => hj (hx.symm.trans hk)
        simp [adjust, aget, hk, hkj, h4, hj, ih]
      · by_cases hkj : kv.1 = j
        · simp [adjust, aget, hk, hkj, hj]
        · simp [adjust, aget, hk, hkj, hj, ih]

theorem fst_adjust (ps : List (Nat × Product)) (k : Nat) (d : Int) :
    (adjust ps k d).map Prod.fst = ps.map Prod.fst := by
  induction ps with
  | nil => rfl
  | cons kv l ih => by_cases h : kv.1 = k <;> simp [adjust, h, ih]

theorem aget_applyDeltas (ds : List (Nat × Int)) (ps : List (Nat × Product)) (k : Nat) :
    aget (applyDeltas ps ds) k =
      (aget ps k).map (fun pr => { pr with stock := pr.stock + sumAt ds k }) := by
  induction ds generalizing ps with
  | nil =>
    cases h : aget ps k with
    | none => simp [applyDeltas, h]
    | some pr => cases pr; simp [applyDeltas, sumAt, h]
  | cons kv l ih =>
    have step : applyDeltas ps (kv :: l) = applyDeltas (adjust ps kv.1 kv.2) l := rfl
    rw [step, ih, aget_adjust]
    by_cases h : k = kv.1
    · subst h
      cases haget : aget ps kv.1 with
      | none => simp [sumAt, haget]
      | some pr =>
        rcases pr with ⟨a, b, c, st⟩
        simp [sumAt, haget, Function.comp, Product.mk.injEq]
        try omega
    · have h2 : ¬ kv.1 = k := fun hx => h hx.symm
      simp [sumAt, h, h2]

theorem fst_applyDeltas (ds : List (Nat × Int)) (ps : List (Nat × Product)) :
    (applyDeltas ps ds).map Prod.fst = ps.map Prod.fst := by
  induction ds generalizing ps with
  | nil => rfl
  | cons kv l ih =>
    have step : applyDeltas ps (kv :: l) = applyDeltas (adjust ps kv.1 kv.2) l := rfl
    rw [step, ih, fst_adjust]

theorem isSome_aget_applyDeltas (ds : List (Nat × Int)) (ps : List (Nat × Product)) (k : Nat) :
    (aget (applyDeltas ps ds) k).isSome = (aget ps k).isSome := by
  rw [aget_applyDeltas]; cases aget ps k <;> simp

theorem aget_dictInsert (d : List (Nat × Int)) (k : Nat) (v : Int) (j : Nat) :
    aget (dictInsert d k v) j = if j = k then some v else aget d j := by
  induction d with
  | nil =>
    by_cases h : j = k
    · subst h; simp [dictInsert, aget]
    · have h2 : ¬ k = j := fun hx => h hx.symm
      simp [dictInsert, aget, h, h2]
  | cons kv l ih =>
    by_cases hj : j = k
    · subst hj
      by_cases hk : kv.1 = j
      · simp [dictInsert, aget, hk]
      · simp [dictInsert, aget, hk, ih]
    · by_cases hk : kv.1 = k
      · have h2 : ¬ k = j := fun hx => hj hx.symm
        have h3 : ¬ kv.1 = j := fun hx => hj (hx.symm.trans hk)
        simp [dictInsert, aget, hk, hj, h2, h3]
      · by_cases h3 : kv.1 = j
        · simp [dictInsert, aget, hk, hj, h3]
        · simp [dictInsert, aget, hk, hj, h3, ih]

theorem fst_mem_dictInsert (d : List (Nat × Int)) (k : Nat) (v : Int) (j : Nat) :
    j ∈ (dictInsert d k v).map Prod.fst ↔ j = k ∨ j ∈ d.map Prod.fst := by
  induction d with
  | nil => simp [dictInsert]
  | cons kv l ih =>
    by_cases hk : kv.1 = k <;> simp_all [dictInsert] <;> tauto

theorem nodup_dictInsert (d : List (Nat × Int)) (k : Nat) (v : Int)
    (h : (d.map Prod.fst).Nodup) : ((dictInsert d k v).map Prod.fst).Nodup := by
  induction d with
  | nil => simp [dictInsert]
  | cons kv l ih =>
    by_cases hk : kv.1 = k
    · simpa [dictInsert, hk] using h
    · simp only [dictInsert, hk, if_false, List.map_cons, List.nodup_cons] at h ⊢
      refine ⟨fun hmem => ?_, ih h.2⟩
      rcases (fst_mem_dictInsert l k v kv.1).mp hmem with h1 | h1
      · exact hk h1
      · exact h.1 h1

theorem aget_eq_none_iff (l : List (Nat × α)) (k : Nat) :
    aget l k = none ↔ k ∉ l.map Prod.fst := by
  induction l with
  | nil => simp [aget]
  | cons kv t ih =>
    by_cases h : kv.1 = k <;> simp_all [aget] <;> tauto

theorem mem_of_aget {l : List (Nat × α)} {k : Nat} {v : α} (h : aget l k = some v) :
    (k, v) ∈ l := by
  induction l with
  | nil => simp [aget] at h
  | cons kv t ih =>
    rcases kv with ⟨a, b⟩
    by_cases hk : a = k
    · subst hk
      simp only [aget, if_pos] at h
      obtain rfl : b = v := by injection h
      exact List.mem_cons_self _ _
    · simp only [aget] at h
      rw [if_neg hk] at h
      exact List.mem_cons_of_mem _ (ih h)

theorem aget_of_mem_nodup {l : List (Nat × α)} {k : Nat} {v : α}
    (hnd : (l.map Prod.fst).Nodup) (h : (k, v) ∈ l) : aget l k = some v := by
  induction l with
  | nil => simp at h
  | cons kv t ih =>
    simp only [List.map_cons, List.nodup_cons] at hnd
    rcases List.mem_cons.mp h with h1 | h1
    · subst h1; simp [aget]
    · have hne : ¬ kv.1 = k := by
        intro hx
        exact hnd.1 (hx ▸ (List.mem_map.mpr ⟨(k, v), h1, rfl⟩))
      simp only [aget, hne, if_false]
      exact ih hnd.2 h1

theorem lastVal_eq_aget {l : List (Nat × Int)} (hnd : (l.map Prod.fst).Nodup) (k : Nat) :
    lastVal l k = aget l k := by
  induction l with
  | nil => rfl
  | cons kv t ih =>
    simp only [List.map_cons, List.nodup_cons] at hnd
    by_cases hk : kv.1 = k
    · have : aget t k = none := by
        rw [aget_eq_none_iff]
        exact fun hm => hnd.1 (hk ▸ hm)
      have hlv : lastVal t k = none := by rw [ih hnd.2, this]
      simp [lastVal, aget, hk, hlv]
    · have ht := ih hnd.2
      simp only [lastVal, ht, aget, hk, if_false]
      cases ha : aget t k <;> simp [ha]

theorem sumAt_eq_aget {l : List (Nat × Int)} (hnd : (l.map Prod.fst).Nodup) (k : Nat) :
    sumAt l k = (aget l k).getD 0 := by
  induction l with
  | nil => simp [sumAt, aget]
  | cons kv t ih =>
    simp only [List.map_cons, List.nodup_cons] at hnd
    by_cases hk : kv.1 = k
    · have : aget t k = none := by
        rw [aget_eq_none_iff]
        exact fun hm => hnd.1 (hk ▸ hm)
      have hs : sumAt t k = 0 := by rw [ih hnd.2, this]; rfl
      simp [sumAt, aget, hk, hs]
    · simp [sumAt, aget, hk, ih hnd.2]

theorem sumAt_nonneg {l : List (Nat × Int)} (h : ∀ kv ∈ l, 0 ≤ kv.2) (k : Nat) :
    0 ≤ sumAt l k := by
  induction l with
  | nil => simp [sumAt]
  | cons kv t ih =>
    have h1 := h kv (List.mem_cons_self kv t)
    have h2 := ih fun x hx => h x (List.mem_cons_of_mem kv hx)
    by_cases hk : kv.1 = k <;> simp [sumAt, hk] <;> omega

theorem aget_append_left {l1 l2 : List (Nat × α)} {k : Nat} {v : α}
    (h : aget l1 k = some v) : aget (l1 ++ l2) k = some v := by
  induction l1 with
  | nil => simp [aget] at h
  | cons kv t ih =>
    by_cases hk : kv.1 = k <;> simp_all [aget]

theorem aget_append_right {l1 l2 : List (Nat × α)} {k : Nat}
    (h : aget l1 k = none) : aget (l1 ++ l2) k = aget l2 k := by
  induction l1 with
  | nil => rfl
  | cons kv t ih =>
    by_cases hk : kv.1 = k <;> simp_all [aget]

theorem nodup_dictOf_loop (l : List (Nat × Int)) :
    ∀ acc, (acc.map Prod.fst).Nodup →
      ((l.foldl (fun d kv => dictInsert d kv.1 kv.2) acc).map Prod.fst).Nodup := by
  induction l with
  | nil => intro acc h; exact h
  | cons kv t ih => intro acc h; exact ih _ (nodup_dictInsert _ _ _ h)

theorem nodup_dictOf (l : List (Nat × Int)) : ((dictOf l).map Prod.fst).Nodup :=
  nodup_dictOf_loop l [] (by simp)

theorem aget_dictOf_loop (l : List (Nat × Int)) (k : Nat) :
    ∀ acc, aget (l.foldl (fun d kv => dictInsert d kv.1 kv.2) acc) k =
      match lastVal l k with
      | some v => some v
      | none => aget acc k := by
  induction l with
  | nil => intro acc; simp [lastVal]
  | cons kv t ih =>
    intro acc
    have step : (kv :: t).foldl (fun d kv => dictInsert d kv.1 kv.2) acc
        = t.foldl (fun d kv => dictInsert d kv.1 kv.2) (dictInsert acc kv.1 kv.2) := rfl
    rw [step, ih]
    cases hlv : lastVal t k with
    | some v =>
      have hl2 : lastVal (kv :: t) k = some v := by
        unfold lastVal
        rw [hlv]
      rw [hl2]
    | none =>
      have hl2 : lastVal (kv :: t) k = if kv.1 = k then some kv.2 else none := by
        unfold lastVal
        rw [hlv]
      rw [aget_dictInsert, hl2]
      by_cases h : kv.1 = k
      · have h2 : k = kv.1 := h.symm
        rw [if_pos h2, if_pos h]
      · have h2 : ¬ k = kv.1 := fun hx => h hx.symm
        rw [if_neg h2, if_neg h]

theorem aget_dictOf (l : List (Nat × Int)) (k : Nat) :
    aget (dictOf l) k = lastVal l k := by
  have h := aget_dictOf_loop l k []
  unfold dictOf
  rw [h]
  cases hlv : lastVal l k <;> simp [aget]

theorem aget_dictOf_nodup {l : List (Nat × Int)} (hnd : (l.map Prod.fst).Nodup) (k : Nat) :
    aget (dictOf l) k = aget l k := by
  rw [aget_dictOf, lastVal_eq_aget hnd]

theorem nodup_scStep1_loop (nm : List (Nat × Int)) (em : List (Nat × Int)) :
    ∀ acc, (acc.map Prod.fst).Nodup →
      ((em.foldl (scStep1 nm) acc).map Prod.fst).Nodup := by
  induction em with
  | nil => intro acc h; exact h
  | cons kv t ih =>
    intro acc h
    refine ih _ ?_
    unfold scStep1
    split_ifs <;> first | exact nodup_dictInsert _ _ _ h | exact h

theorem nodup_scStep2_loop (em : List (Nat × Int)) (nm : List (Nat × Int)) :
    ∀ acc, (acc.map Prod.fst).Nodup →
      ((nm.foldl (scStep2 em) acc).map Prod.fst).Nodup := by
  induction nm with
  | nil => intro acc h; exact h
  | cons kv t ih =>
    intro acc h
    refine ih _ ?_
    unfold scStep2
    split_ifs <;> first | exact nodup_dictInsert _ _ _ h | exact h

theorem nodup_stockChangesOf (em nm : List (Nat × Int)) :
    ((stockChangesOf em nm).map Prod.fst).Nodup :=
  nodup_scStep2_loop em nm _ (nodup_scStep1_loop nm em [] (by simp))

theorem aget_scStep1_loop (nm : List (Nat × Int)) :
    ∀ (em acc : List (Nat × Int)), (em.map Prod.fst).Nodup →
      (∀ j ∈ em.map Prod.fst, aget acc j = none) → ∀ k,
      aget (em.foldl (scStep1 nm) acc) k =
        match aget em k with
        | some o =>
          if (aget nm k).getD 0 < o then some (o - (aget nm k).getD 0)
          else if o < (aget nm k).getD 0 then some ((aget nm k).getD 0 - o)
          else none
        | none => aget acc k := by
  intro em
  induction em with
  | nil => intro acc _ _ k; simp [aget]
  | cons kv t ih =>
    intro acc hnd hfresh k
    have hnd2 : (t.map Prod.fst).Nodup := by
      simp only [List.map_cons, List.nodup_cons] at hnd
      exact hnd.2
    have hk0 : kv.1 ∉ t.map Prod.fst := by
      simp only [List.map_cons, List.nodup_cons] at hnd
      exact hnd.1
    have hfresh2 : ∀ j ∈ t.map Prod.fst, aget (scStep1 nm acc kv) j = none := by
      intro j hj
      have hji : ¬ j = kv.1 := fun hx => hk0 (hx ▸ hj)
      have hacc : aget acc j = none :=
        hfresh j (List.mem_cons_of_mem _ hj)
      unfold scStep1
      split_ifs <;> simp [aget_dictInsert, hji, hacc]
    have step : (kv :: t).foldl (scStep1 nm) acc = t.foldl (scStep1 nm) (scStep1 nm acc kv) := rfl
    rw [step, ih _ hnd2 hfresh2]
    by_cases hk : kv.1 = k
    · subst hk
      have htk : aget t kv.1 = none := (aget_eq_none_iff t kv.1).mpr hk0
      have hacck : aget acc kv.1 = none := hfresh kv.1 (by simp)
      have hhead : aget (kv :: t) kv.1 = some kv.2 := by simp [aget]
      simp only [htk, hhead]
      unfold scStep1
      by_cases h1 : (aget nm kv.1).getD 0 < kv.2
      · rw [if_pos h1, if_pos h1, aget_dictInsert, if_pos rfl]
      · rw [if_neg h1, if_neg h1]
        by_cases h2 : kv.2 < (aget nm kv.1).getD 0
        · rw [if_pos h2, if_pos h2, aget_dictInsert, if_pos rfl]
        · rw [if_neg h2, if_neg h2]
          exact hacck
    · have hstep2 : aget (scStep1 nm acc kv) k = aget acc k := by
        have hne : ¬ k = kv.1 := fun hx => hk hx.symm
        unfold scStep1
        split_ifs <;> simp [aget_dictInsert, hne]
      have hhead : aget (kv :: t) k = aget t k := by simp [aget, hk]
      simp only [hhead, hstep2]

theorem aget_scStep2_loop (em : List (Nat × Int)) :
    ∀ (nm acc : List (Nat × Int)), (nm.map Prod.fst).Nodup → ∀ k,
      aget (nm.foldl (scStep2 em) acc) k =
        match aget nm k, aget em k with
        | some n, none => some n
        | _, _ => aget acc k := by
  intro nm
  induction nm with
  | nil => intro acc _ k; cases hem : aget em k <;> simp [aget, hem]
  | cons kv t ih =>
    intro acc hnd k
    have hnd2 : (t.map Prod.fst).Nodup := by
      simp only [List.map_cons, List.nodup_cons] at hnd
      exact hnd.2
    have hk0 : kv.1 ∉ t.map Prod.fst := by
      simp only [List.map_cons, List.nodup_cons] at hnd
      exact hnd.1
    have step : (kv :: t).foldl (scStep2 em) acc = t.foldl (scStep2 em) (scStep2 em acc kv) := rfl
    rw [step, ih _ hnd2]
    by_cases hk : kv.1 = k
    · subst hk
      have htk : aget t kv.1 = none := (aget_eq_none_iff t kv.1).mpr hk0
      have hhead : aget (kv :: t) kv.1 = some kv.2 := by simp [aget]
      simp only [htk, hhead]
      cases hem : aget em kv.1 with
      | some o => simp [scStep2, hem]
      | none => simp [scStep2, hem, aget_dictInsert]
    · have hstep2 : aget (scStep2 em acc kv) k = aget acc k := by
        have hne : ¬ k = kv.1 := fun hx => hk hx.symm
        unfold scStep2
        split_ifs <;> simp [aget_dictInsert, hne]
      have hhead : aget (kv :: t) k = aget t k := by simp [aget, hk]
      simp only [hhead, hstep2]

theorem aget_stockChangesOf {em nm : List (Nat × Int)}
    (hem : (em.map Prod.fst).Nodup) (hnm : (nm.map Prod.fst).Nodup) (k : Nat) :
    aget (stockChangesOf em nm) k = scSpec em nm k := by
  unfold stockChangesOf scSpec
  rw [aget_scStep2_loop em nm _ hnm k,
    aget_scStep1_loop nm em [] hem (fun j _ => rfl) k]
  cases hem2 : aget em k with
  | some o => cases hnm2 : aget nm k <;> simp [hem2, hnm2]
  | none => cases hnm2 : aget nm k <;> simp [hem2, hnm2, aget]

theorem scSpec_none_eq {em nm : List (Nat × Int)} {k : Nat}
    (h : scSpec em nm k = none) : (aget nm k).getD 0 = (aget em k).getD 0 := by
  unfold scSpec at h
  cases hem : aget em k with
  | some o =>
    rw [hem] at h
    simp only at h
    split_ifs at h <;> simp_all <;> omega
  | none =>
    rw [hem] at h
    simp only at h
    simp [h]

theorem scSpec_none_qty {em nm : List (Nat × Int)} {k : Nat}
    (hem : (em.map Prod.fst).Nodup) (hnm : (nm.map Prod.fst).Nodup)
    (h : aget (stockChangesOf em nm) k = none) :
    (aget nm k).getD 0 = (aget em k).getD 0 :=
  scSpec_none_eq (by rw [← aget_stockChangesOf hem hnm]; exact h)

theorem validateAll_ok {s : DB} {items : List OrderProductBase} {t : Rat}
    (h : validateAll s items = .ok t) :
    ∀ i ∈ items, ∃ pr, aget s.products i.product_id = some pr ∧ ¬ pr.stock < i.quantity := by
  induction items generalizing t with
  | nil => intro i hi; simp at hi
  | cons x rest ih =>
    intro i hi
    unfold validateAll at h
    cases hx : aget s.products x.product_id with
    | none => simp only [hx] at h; cases h
    | some pr =>
      simp only [hx] at h
      by_cases hst : pr.stock < x.quantity
      · rw [if_pos hst] at h; cases h
      · rw [if_neg hst] at h
        rcases List.mem_cons.mp hi with rfl | hi2
        · exact ⟨pr, hx, hst⟩
        · cases hr : validateAll s rest with
          | error e => rw [hr] at h; cases h
          | ok t2 => exact ih hr i hi2

theorem validateChanges_ok {s : DB} {l : List (Nat × Int)} (h : validateChanges s l = .ok ()) :
    ∀ kv ∈ l, ∃ pr, aget s.products kv.1 = some pr ∧ (0 < kv.2 → ¬ pr.stock < kv.2) := by
  induction l with
  | nil => intro kv hkv; simp at hkv
  | cons x rest ih =>
    intro kv hkv
    unfold validateChanges at h
    cases hx : aget s.products x.1 with
    | none => simp only [hx] at h; cases h
    | some pr =>
      simp only [hx] at h
      by_cases hst : 0 < x.2 ∧ pr.stock < x.2
      · rw [if_pos hst] at h; cases h
      · rw [if_neg hst] at h
        rcases List.mem_cons.mp hkv with rfl | hkv2
        · exact ⟨pr, hx, fun hpos hstock => hst ⟨hpos, hstock⟩⟩
        · exact ih h kv hkv2

theorem recomputeTotal_ok {ps : List (Nat × Product)} {l : List OrderProductBase} {t : Rat}
    (h : recomputeTotal ps l = some t) :
    ∀ i ∈ l, (aget ps i.product_id).isSome = true := by
  induction l generalizing t with
  | nil => intro i hi; simp at hi
  | cons x rest ih =>
    intro i hi
    unfold recomputeTotal at h
    cases hx : aget ps x.product_id with
    | none => simp only [hx] at h; cases h
    | some pr =>
      simp only [hx] at h
      rcases List.mem_cons.mp hi with rfl | hi2
      · rw [hx]; rfl
      · cases hr : recomputeTotal ps rest with
        | none => rw [hr] at h; cases h
        | some t2 => exact ih hr i hi2

theorem recomputeTotal_eq {ps : List (Nat × Product)} {l : List OrderProductBase}
    (h : ∀ i ∈ l, (aget ps i.product_id).isSome = true) :
    recomputeTotal ps l = some (reqTotal ps l) := by
  induction l with
  | nil => rfl
  | cons x rest ih =>
    have hx := h x (List.mem_cons_self x rest)
    cases hget : aget ps x.product_id with
    | none => rw [hget] at hx; cases hx
    | some pr =>
      have hrest := ih fun i hi => h i (List.mem_cons_of_mem x hi)
      unfold recomputeTotal reqTotal
      rw [hget, hrest]
      rfl

theorem reservedIn_append (l1 l2 : List OrderLine) (p : Nat) :
    reservedIn (l1 ++ l2) p = reservedIn l1 p + reservedIn l2 p := by
  induction l1 with
  | nil => simp [reservedIn]
  | cons x t ih => simp [reservedIn, ih]; ring

theorem reservedIn_eq_sumAt (ls : List OrderLine) (p : Nat) :
    reservedIn ls p = sumAt (ls.map fun l => (l.product_id, l.quantity)) p := by
  induction ls with
  | nil => rfl
  | cons x t ih => simp [reservedIn, sumAt, ih]

theorem reservedIn_split_oid (ls : List OrderLine) (oid : Nat) (p : Nat) :
    reservedIn ls p =
      reservedIn (ls.filter fun l => l.order_id = oid) p +
        reservedIn (ls.filter fun l => ¬ l.order_id = oid) p := by
  induction ls with
  | nil => simp [reservedIn]
  | cons x t ih =>
    by_cases h : x.order_id = oid <;>
      simp [reservedIn, h, List.filter_cons, ih] <;> ring

theorem reservedIn_mapLines (oid : Nat) (items : List OrderProductBase) (p : Nat) :
    reservedIn (items.map fun i => (⟨oid, i.product_id, i.quantity⟩ : OrderLine)) p
      = sumAt (items.map fun i => (i.product_id, i.quantity)) p := by
  induction items with
  | nil => rfl
  | cons x t ih => simp [reservedIn, sumAt, ih]

theorem sumAt_map_negQty (items : List OrderProductBase) (p : Nat) :
    sumAt (items.map fun i => (i.product_id, -i.quantity)) p
      = -sumAt (items.map fun i => (i.product_id, i.quantity)) p := by
  induction items with
  | nil => simp [sumAt]
  | cons x t ih =>
    by_cases h : x.product_id = p <;> simp [sumAt, h, ih] <;> ring

theorem aget_map_signedDelta (em nm : List (Nat × Int)) (l : List (Nat × Int)) (k : Nat) :
    aget (l.map (signedDelta em nm)) k =
      (aget l k).map fun v => if signFor em nm k then v else -v := by
  induction l with
  | nil => rfl
  | cons kv t ih =>
    by_cases hk : kv.1 = k
    · subst hk
      simp [signedDelta, aget]
    · simp [signedDelta, aget, hk, ih]

theorem fst_map_signedDelta (em nm : List (Nat × Int)) (l : List (Nat × Int)) :
    (l.map (signedDelta em nm)).map Prod.fst = l.map Prod.fst := by
  simp [List.map_map, Function.comp, signedDelta]

theorem nodup_filter_pids {ls : List OrderLine}
    (hp : ls.Pairwise fun a b => a.order_id = b.order_id → ¬ a.product_id = b.product_id)
    (oid : Nat) :
    ((ls.filter fun l => l.order_id = oid).map OrderLine.product_id).Nodup := by
  have h1 : (ls.filter fun l => l.order_id = oid).Pairwise
      (fun a b => a.order_id = b.order_id → ¬ a.product_id = b.product_id) :=
    hp.filter _
  have h2 : (ls.filter fun l => l.order_id = oid).Pairwise
      (fun a b => ¬ a.product_id = b.product_id) := by
    refine List.Pairwise.imp_of_mem ?_ h1
    intro a b ha hb hab
    have ha2 : a.order_id = oid := by
      have := List.mem_filter.mp ha
      simpa using this.2
    have hb2 : b.order_id = oid := by
      have := List.mem_filter.mp hb
      simpa using this.2
    exact hab (ha2.trans hb2.symm)
  exact h2.map _ fun a b hab => hab

theorem keys_map_pairs (ls : List OrderLine) :
    ((ls.map fun l => (l.product_id, l.quantity)).map Prod.fst)
      = ls.map OrderLine.product_id := by
  simp [List.map_map, Function.comp]

theorem keys_req_pairs (items : List OrderProductBase) :
    ((items.map fun i => (i.product_id, i.quantity)).map Prod.fst)
      = items.map OrderProductBase.product_id := by
  simp [List.map_map, Function.comp]

theorem create_ok_elim {s : DB} {req : OrderBase} {ts : Nat} {s' : DB} {oid : Nat}
    (h : crud_create_order s req ts = .ok (s', oid)) :
    ∃ total, validateAll s req.products = .ok total ∧ oid = s.nextOrderId ∧
      s' = createdState s req ts total := by
  unfold crud_create_order at h
  cases hv : validateAll s req.products with
  | error e => simp only [hv] at h; cases h
  | ok total =>
    simp only [hv] at h
    injection h with h2
    injection h2 with h3 h4
    exact ⟨total, rfl, h4.symm, h3.symm⟩

theorem update_ok_elim {s : DB} {oid : Nat} {req : OrderBase} {s' : DB}
    (h : crud_update_order s oid req = .ok s') :
    ∃ row total, aget s.orders oid = some row ∧
      validateChanges s (scOf s oid req) = .ok () ∧
      recomputeTotal (updProds s oid req) req.products = some total ∧
      s' = updatedState s oid req row total := by
  unfold crud_update_order at h
  cases hrow : aget s.orders oid with
  | none => simp only [hrow] at h; cases h
  | some row =>
    simp only [hrow] at h
    cases hv : validateChanges s (scOf s oid req) with
    | error e => simp only [hv] at h; cases h
    | ok u =>
      cases u
      simp only [hv] at h
      cases ht : recomputeTotal (updProds s oid req) req.products with
      | none => simp only [ht] at h; cases h
      | some total =>
        simp only [ht] at h
        injection h with h2
        exact ⟨row, total, rfl, rfl, rfl, h2.symm⟩

theorem delete_ok_elim {s : DB} {oid : Nat} {s' : DB}
    (h : crud_delete_order s oid = .ok s') :
    (∃ row, aget s.orders oid = some row) ∧ s' = deletedState s oid := by
  unfold crud_delete_order at h
  cases hrow : aget s.orders oid with
  | none => simp only [hrow] at h; cases h
  | some row =>
    simp only [hrow] at h
    injection h with h2
    exact ⟨⟨row, rfl⟩, h2.symm⟩

theorem delete_succeeds {s : DB} {oid : Nat} {row : OrderRow}
    (h : aget s.orders oid = some row) :
    crud_delete_order s oid = .ok (deletedState s oid) := by
  unfold crud_delete_order
  rw [h]

theorem signed_scSpec_getD (em nm : List (Nat × Int)) (p : Nat) :
    ((scSpec em nm p).map fun v => if signFor em nm p then v else -v).getD 0
      = (aget em p).getD 0 - (aget nm p).getD 0 := by
  unfold scSpec signFor
  cases hem : aget em p with
  | some o =>
    cases hnm : aget nm p with
    | some n =>
      by_cases h1 : n < o
      · simp [h1]
      · by_cases h2 : o < n
        · simp [h1, h2]
          try omega
        · have h3 : n = o := by omega
          simp [h1, h2, h3]
    | none =>
      by_cases h1 : (0 : Int) < o
      · simp [h1]
        try omega
      · by_cases h2 : o < 0
        · simp [h1, h2]
          try omega
        · have h3 : o = 0 := by omega
          simp [h1, h2, h3]
  | none =>
    cases hnm : aget nm p <;> simp

theorem updProds_aget {s : DB} {oid : Nat} {req : OrderBase}
    (hval : validateChanges s (scOf s oid req) = .ok ()) (p : Nat) :
    ((aget (updProds s oid req) p).map Product.stock).getD 0
      = ((aget s.products p).map Product.stock).getD 0
        - (newQof req p - oldQof s oid p) := by
  have hem : ((emOf s oid).map Prod.fst).Nodup := nodup_dictOf _
  have hnm : ((nmOf req).map Prod.fst).Nodup := nodup_dictOf _
  have hscn : ((scOf s oid req).map Prod.fst).Nodup := nodup_stockChangesOf _ _
  have hkeys : (((scOf s oid req).map (signedDelta (emOf s oid) (nmOf req))).map Prod.fst).Nodup := by
    rw [fst_map_signedDelta]
    exact hscn
  have hsum : sumAt ((scOf s oid req).map (signedDelta (emOf s oid) (nmOf req))) p
      = oldQof s oid p - newQof req p := by
    rw [sumAt_eq_aget hkeys, aget_map_signedDelta]
    have hagetsc : aget (scOf s oid req) p = scSpec (emOf s oid) (nmOf req) p :=
      aget_stockChangesOf hem hnm p
    rw [hagetsc]
    exact signed_scSpec_getD (emOf s oid) (nmOf req) p
  unfold updProds
  rw [aget_applyDeltas]
  cases hp : aget s.products p with
  | some pr =>
    simp [hsum]
    try ring
  | none =>
    have hsc : aget (scOf s oid req) p = none := by
      cases hsc2 : aget (scOf s oid req) p with
      | none => rfl
      | some c =>
        obtain ⟨pr, hpr, _⟩ := validateChanges_ok hval (p, c) (mem_of_aget hsc2)
        rw [hp] at hpr
        cases hpr
    have hqe : newQof req p = oldQof s oid p :=
      scSpec_none_qty hem hnm hsc
    simp [hqe]

theorem update_stock {s : DB} {oid : Nat} {req : OrderBase} {s' : DB}
    (h : crud_update_order s oid req = .ok s') (p : Nat) :
    stockOf s' p = stockOf s p - (newQof req p - oldQof s oid p) := by
  obtain ⟨row, total, hrow, hval, ht, rfl⟩ := update_ok_elim h
  exact updProds_aget hval p

theorem sumAt_eq_zero {l : List (Nat × Int)} {k : Nat} (h : k ∉ l.map Prod.fst) :
    sumAt l k = 0 := by
  induction l with
  | nil => rfl
  | cons kv t ih =>
    simp only [List.map_cons, List.mem_cons] at h
    push_neg at h
    have h1 : ¬ kv.1 = k := fun hx => h.1 hx.symm
    simp [sumAt, h1, ih h.2]

theorem pairwise_of_nodup_map {α β : Type} {f : α → β} {l : List α}
    (h : (l.map f).Nodup) : l.Pairwise fun a b => ¬ f a = f b := by
  induction l with
  | nil => exact List.Pairwise.nil
  | cons x t ih =>
    simp only [List.map_cons, List.nodup_cons] at h
    refine List.Pairwise.cons ?_ (ih h.2)
    intro b hb hfb
    exact h.1 (hfb ▸ List.mem_map.mpr ⟨b, hb, rfl⟩)

theorem wf_stockOf_nonneg {s : DB} (hwf : WF s) (p : Nat) : 0 ≤ stockOf s p := by
  unfold stockOf
  cases hp : aget s.products p with
  | none => simp
  | some pr => simpa using hwf.2.2.2.1 (p, pr) (mem_of_aget hp)

theorem oldQof_eq_reservedIn {s : DB} (hpw : s.orderLines.Pairwise
      fun a b => a.order_id = b.order_id → ¬ a.product_id = b.product_id)
    (oid : Nat) (p : Nat) :
    oldQof s oid p = reservedIn (linesFor s oid) p := by
  have hnd : (((linesFor s oid).map fun l => (l.product_id, l.quantity)).map Prod.fst).Nodup := by
    rw [keys_map_pairs]
    exact nodup_filter_pids hpw oid
  unfold oldQof emOf
  rw [aget_dictOf_nodup hnd, reservedIn_eq_sumAt, sumAt_eq_aget hnd]

theorem newQof_eq_sumAt {req : OrderBase} (hwfr : WFReq req) (p : Nat) :
    newQof req p = sumAt (req.products.map fun i => (i.product_id, i.quantity)) p := by
  have hnd : ((req.products.map fun i => (i.product_id, i.quantity)).map Prod.fst).Nodup := by
    rw [keys_req_pairs]
    exact hwfr.1
  unfold newQof nmOf
  rw [aget_dictOf_nodup hnd, sumAt_eq_aget hnd]

theorem aget_filter_ne (l : List (Nat × α)) (k : Nat) :
    aget (l.filter fun kv => ¬ kv.1 = k) k = none := by
  induction l with
  | nil => rfl
  | cons kv t ih =>
    simp only [decide_not] at ih
    by_cases h : kv.1 = k <;> simp [List.filter_cons, h, aget, decide_not, ih]

theorem aget_filter_ne_other (l : List (Nat × α)) (k j : Nat) (hj : ¬ j = k) :
    aget (l.filter fun kv => ¬ kv.1 = k) j = aget l j := by
  have h4 : ¬ k = j := fun hx => hj hx.symm
  induction l with
  | nil => rfl
  | cons kv t ih =>
    simp only [decide_not] at ih
    by_cases h : kv.1 = k
    · have h2 : ¬ kv.1 = j := fun hx => hj (hx.symm.trans h)
      simp [List.filter_cons, h, aget, decide_not, h2, h4, hj, ih]
    · by_cases h2 : kv.1 = j <;>
        simp [List.filter_cons, h, aget, decide_not, h2, h4, hj, ih]

theorem aget_map_replace (l : List (Nat × OrderRow)) (oid : Nat) (row2 : OrderRow) :
    aget (l.map fun kv => if kv.1 = oid then (oid, row2) else kv) oid
      = (aget l oid).map fun _ => row2 := by
  induction l with
  | nil => rfl
  | cons kv t ih =>
    by_cases h : kv.1 = oid <;> simp [aget, h, ih]

theorem aget_map_replace_ne (l : List (Nat × OrderRow)) (oid : Nat) (row2 : OrderRow)
    (j : Nat) (hj : ¬ j = oid) :
    aget (l.map fun kv => if kv.1 = oid then (oid, row2) else kv) j = aget l j := by
  induction l with
  | nil => rfl
  | cons kv t ih =>
    by_cases h : kv.1 = oid
    · have h2 : ¬ oid = j := fun hx => hj hx.symm
      have h3 : ¬ kv.1 = j := fun hx => hj (hx.symm.trans h)
      simp [aget, h, h2, h3, hj, ih]
    · by_cases h2 : kv.1 = j <;> simp [aget, h, h2, hj, ih]

theorem aget_upsertDoc (d : List (Nat × Doc)) (k : Nat) (v : Doc) (j : Nat) :
    aget (upsertDoc d k v) j = if j = k then some v else aget d j := by
  induction d with
  | nil =>
    by_cases h : j = k
    · subst h; simp [upsertDoc, aget]
    · have h2 : ¬ k = j := fun hx => h hx.symm
      simp [upsertDoc, aget, h, h2]
  | cons kv l ih =>
    by_cases hj : j = k
    · subst hj
      by_cases hk : kv.1 = j
      · simp [upsertDoc, aget, hk]
      · simp [upsertDoc, aget, hk, ih]
    · by_cases hk : kv.1 = k
      · have h2 : ¬ k = j := fun hx => hj hx.symm
        have h3 : ¬ kv.1 = j := fun hx => hj (hx.symm.trans hk)
        simp [upsertDoc, aget, hk, hj, h2, h3]
      · by_cases h3 : kv.1 = j
        · simp [upsertDoc, aget, hk, hj, h3]
        · simp [upsertDoc, aget, hk, hj, h3, ih]

theorem aget_append_fresh {l : List (Nat × α)} {k : Nat} (v : α)
    (h : ∀ kv ∈ l, ¬ kv.1 = k) : aget (l ++ [(k, v)]) k = some v := by
  have h0 : aget l k = none := by
    rw [aget_eq_none_iff]
    intro hm
    obtain ⟨kv, hkv, hkv2⟩ := List.mem_map.mp hm
    exact h kv hkv hkv2
  rw [aget_append_right h0]
  simp [aget]

theorem filter_eq_nil_of_lt {ls : List OrderLine} {oid : Nat}
    (h : ∀ l ∈ ls, l.order_id < oid) :
    (ls.filter fun l => l.order_id = oid) = [] := by
  induction ls with
  | nil => rfl
  | cons x t ih =>
    have hx : ¬ x.order_id = oid := Nat.ne_of_lt (h x (List.mem_cons_self x t))
    simp [List.filter_cons, hx]
    intro l hl
    exact Nat.ne_of_lt (h l (List.mem_cons_of_mem x hl))

theorem filter_lines_self (oid : Nat) (items : List OrderProductBase) :
    ((items.map fun i => (⟨oid, i.product_id, i.quantity⟩ : OrderLine)).filter
      fun l => l.order_id = oid) = items.map fun i => (⟨oid, i.product_id, i.quantity⟩ : OrderLine) := by
  induction items with
  | nil => rfl
  | cons x t ih => simp [List.filter_cons, ih]

theorem filter_filter_ne (ls : List OrderLine) (oid : Nat) :
    ((ls.filter fun l => ¬ l.order_id = oid).filter fun l => l.order_id = oid) = [] := by
  induction ls with
  | nil => rfl
  | cons x t ih =>
    by_cases h : x.order_id = oid <;> simp [List.filter_cons, h, ih]

theorem linesFor_created (s : DB) (req : OrderBase) (ts : Nat) (total : Rat)
    (hfresh : ∀ l ∈ s.orderLines, l.order_id < s.nextOrderId) :
    linesFor (createdState s req ts total) s.nextOrderId = newLinesOf s.nextOrderId req := by
  unfold linesFor createdState createdCore
  simp only [List.filter_append]
  rw [filter_eq_nil_of_lt hfresh]
  unfold newLinesOf
  rw [filter_lines_self]
  rfl

theorem linesFor_updated (s : DB) (oid : Nat) (req : OrderBase) (row : OrderRow) (total : Rat) :
    linesFor (updatedState s oid req row total) oid = newLinesOf oid req := by
  unfold linesFor updatedState updatedCore
  simp only [List.filter_append]
  rw [filter_filter_ne]
  unfold newLinesOf
  rw [filter_lines_self]
  rfl

theorem linesFor_deleted (s : DB) (oid : Nat) :
    linesFor (deletedState s oid) oid = [] := by
  unfold linesFor deletedState
  simp only []
  exact filter_filter_ne s.orderLines oid

theorem keys_req_pairs_neg (items : List OrderProductBase) :
    ((items.map fun i => (i.product_id, -i.quantity)).map Prod.fst)
      = items.map OrderProductBase.product_id := by
  simp [List.map_map, Function.comp]

theorem nodup_append_singleton {l : List Nat} {k : Nat} (h : l.Nodup) (hk : k ∉ l) :
    (l ++ [k]).Nodup := by
  induction l with
  | nil => simp
  | cons x t ih =>
    simp only [List.nodup_cons] at h
    have hk2 : k ∉ t := fun hx => hk (List.mem_cons_of_mem x hx)
    have hxk : ¬ x = k := fun hx => hk (hx ▸ List.mem_cons_self x t)
    simp only [List.cons_append, List.nodup_cons]
    refine ⟨?_, ih h.2 hk2⟩
    intro hmem
    rcases List.mem_append.mp hmem with h1 | h1
    · exact h.1 h1
    · simp at h1
      exact hxk h1

theorem createdState_products (s : DB) (req : OrderBase) (ts : Nat) (total : Rat) :
    (createdState s req ts total).products
      = applyDeltas s.products (req.products.map fun i => (i.product_id, -i.quantity)) := rfl

theorem createdState_orderLines (s : DB) (req : OrderBase) (ts : Nat) (total : Rat) :
    (createdState s req ts total).orderLines
      = s.orderLines ++ newLinesOf s.nextOrderId req := rfl

theorem createdState_orders (s : DB) (req : OrderBase) (ts : Nat) (total : Rat) :
    (createdState s req ts total).orders
      = s.orders ++ [(s.nextOrderId,
          ⟨s.nextOrderId, req.name, req.description, ts, total⟩)] := rfl

theorem createdState_nextOrderId (s : DB) (req : OrderBase) (ts : Nat) (total : Rat) :
    (createdState s req ts total).nextOrderId = s.nextOrderId + 1 := rfl

theorem create_preserves {s : DB} {req : OrderBase} {ts : Nat} {s' : DB} {oid : Nat}
    (hwfr : WFReq req) (hwf : WF s) (h : crud_create_order s req ts = .ok (s', oid)) :
    (∀ p, provisioned s' p = provisioned s p) ∧ WF s' := by
  obtain ⟨total, hv, hoid, rfl⟩ := create_ok_elim h
  obtain ⟨hl, ho, hpw, hsn, hpnd, hond⟩ := hwf
  obtain ⟨hrnd, hrq⟩ := hwfr
  have hnn : ∀ p, 0 ≤ stockOf (createdState s req ts total) p := by
    intro p
    unfold stockOf
    rw [createdState_products, aget_applyDeltas]
    cases hp : aget s.products p with
    | none => simp
    | some pr =>
      by_cases hmem : p ∈ req.products.map OrderProductBase.product_id
      · obtain ⟨i, hi, hieq⟩ := List.mem_map.mp hmem
        obtain ⟨pr2, hpr2, hstk⟩ := validateAll_ok hv i hi
        rw [hieq, hp] at hpr2
        injection hpr2 with hpr3
        subst hpr3
        have hkeysnd : ((req.products.map fun i => (i.product_id, -i.quantity)).map
            Prod.fst).Nodup := by
          rw [keys_req_pairs_neg]
          exact hrnd
        have hmem2 : ((p, -i.quantity) : Nat × Int)
            ∈ req.products.map fun i => (i.product_id, -i.quantity) :=
          List.mem_map.mpr ⟨i, hi, by rw [hieq]⟩
        simp only [sumAt_eq_aget hkeysnd, aget_of_mem_nodup hkeysnd hmem2]
        simp
        omega
      · have hz : sumAt (req.products.map fun i => (i.product_id, -i.quantity)) p = 0 :=
          sumAt_eq_zero (by rw [keys_req_pairs_neg]; exact hmem)
        simp only [hz]
        have h3 : 0 ≤ pr.stock := hsn (p, pr) (mem_of_aget hp)
        simp
        omega
  have hprov : ∀ p, provisioned (createdState s req ts total) p = provisioned s p := by
    intro p
    unfold provisioned stockOf
    rw [createdState_products, createdState_orderLines, aget_applyDeltas,
      reservedIn_append]
    unfold newLinesOf
    rw [reservedIn_mapLines]
    cases hp : aget s.products p with
    | none =>
      have hnone : p ∉ req.products.map OrderProductBase.product_id := by
        intro hmem
        obtain ⟨i, hi, hieq⟩ := List.mem_map.mp hmem
        obtain ⟨pr, hpr, _⟩ := validateAll_ok hv i hi
        rw [hieq, hp] at hpr
        cases hpr
      have hz : sumAt (req.products.map fun i => (i.product_id, i.quantity)) p = 0 :=
        sumAt_eq_zero (by rw [keys_req_pairs]; exact hnone)
      rw [hz]
      simp
    | some pr =>
      simp only [sumAt_map_negQty]
      simp
      omega
  refine ⟨hprov, ?_, ?_, ?_, ?_, ?_, ?_⟩
  · intro l hlm
    rw [createdState_orderLines] at hlm
    rcases List.mem_append.mp hlm with hold | hnew
    · obtain ⟨he, hq, hb⟩ := hl l hold
      refine ⟨?_, hq, ?_⟩
      · rw [createdState_products, isSome_aget_applyDeltas]
        exact he
      · rw [createdState_nextOrderId]
        omega
    · obtain ⟨i, hi, rfl⟩ := List.mem_map.mp hnew
      obtain ⟨pr, hpr, _⟩ := validateAll_ok hv i hi
      refine ⟨?_, hrq i hi, ?_⟩
      · rw [createdState_products, isSome_aget_applyDeltas]
        simp only [hpr]
        rfl
      · rw [createdState_nextOrderId]
        exact Nat.lt_succ_self _
  · intro kv hkv
    rw [createdState_orders] at hkv
    rw [createdState_nextOrderId]
    rcases List.mem_append.mp hkv with hold | hnew
    · have := ho kv hold
      omega
    · simp at hnew
      subst hnew
      exact Nat.lt_succ_self _
  · rw [createdState_orderLines, List.pairwise_append]
    refine ⟨hpw, ?_, ?_⟩
    · exact (pairwise_of_nodup_map hrnd).map _ fun a b hab => fun _ => hab
    · intro a ha b hb
      obtain ⟨i, hi, rfl⟩ := List.mem_map.mp hb
      intro heq
      exfalso
      have hlt := (hl a ha).2.2
      simp only at heq
      omega
  · intro kv hkv
    have hget : aget (createdState s req ts total).products kv.1 = some kv.2 := by
      apply aget_of_mem_nodup ?_ hkv
      rw [createdState_products, fst_applyDeltas]
      exact hpnd
    have h2 := hnn kv.1
    unfold stockOf at h2
    rw [hget] at h2
    simpa using h2
  · rw [createdState_products, fst_applyDeltas]
    exact hpnd
  · rw [createdState_orders, List.map_append]
    refine nodup_append_singleton hond ?_
    intro hmem
    obtain ⟨kv, hkv, hkeq⟩ := List.mem_map.mp hmem
    have := ho kv hkv
    omega

theorem scSpec_some_cases {em nm : List (Nat × Int)} {p : Nat} {c : Int}
    (h : scSpec em nm p = some c) :
    ((aget em p).isSome = true ∧
      ((aget nm p).getD 0 < (aget em p).getD 0 ∧
          c = (aget em p).getD 0 - (aget nm p).getD 0 ∨
        (aget em p).getD 0 < (aget nm p).getD 0 ∧
          c = (aget nm p).getD 0 - (aget em p).getD 0)) ∨
      (aget em p = none ∧ aget nm p = some c) := by
  unfold scSpec at h
  cases hem : aget em p with
  | some o =>
    rw [hem] at h
    simp only at h
    split_ifs at h with h1 h2
    · left
      injection h with h3
      refine ⟨rfl, Or.inl ⟨?_, ?_⟩⟩ <;> simp [hem] <;> try omega
    · left
      injection h with h3
      refine ⟨rfl, Or.inr ⟨?_, ?_⟩⟩ <;> simp [hem] <;> try omega
  | none =>
    rw [hem] at h
    simp only at h
    exact Or.inr ⟨rfl, h⟩

theorem fst_map_replace (l : List (Nat × OrderRow)) (oid : Nat) (row2 : OrderRow) :
    ((l.map fun kv => if kv.1 = oid then (oid, row2) else kv).map Prod.fst)
      = l.map Prod.fst := by
  induction l with
  | nil => rfl
  | cons kv t ih =>
    by_cases h : kv.1 = oid <;> simp [h, ih]

theorem updatedState_products (s : DB) (oid : Nat) (req : OrderBase) (row : OrderRow)
    (total : Rat) : (updatedState s oid req row total).products = updProds s oid req := rfl

theorem updatedState_orderLines (s : DB) (oid : Nat) (req : OrderBase) (row : OrderRow)
    (total : Rat) : (updatedState s oid req row total).orderLines
      = (s.orderLines.filter fun l => ¬ l.order_id = oid) ++ newLinesOf oid req := rfl

theorem updatedState_orders (s : DB) (oid : Nat) (req : OrderBase) (row : OrderRow)
    (total : Rat) : (updatedState s oid req row total).orders
      = s.orders.map fun kv =>
          if kv.1 = oid then (oid, updRow req row total) else kv := rfl

theorem updatedState_nextOrderId (s : DB) (oid : Nat) (req : OrderBase) (row : OrderRow)
    (total : Rat) : (updatedState s oid req row total).nextOrderId = s.nextOrderId := rfl

theorem update_preserves {s : DB} {oid : Nat} {req : OrderBase} {s' : DB}
    (hwfr : WFReq req) (hwf : WF s) (h : crud_update_order s oid req = .ok s') :
    (∀ p, provisioned s' p = provisioned s p) ∧ WF s' := by
  have hsnn : ∀ p, 0 ≤ stockOf s p := wf_stockOf_nonneg hwf
  obtain ⟨row, total, hrow, hval, ht, rfl⟩ := update_ok_elim h
  obtain ⟨hl, ho, hpw, hsn, hpnd, hond⟩ := hwf
  obtain ⟨hrnd, hrq⟩ := hwfr
  have hemnd : ((emOf s oid).map Prod.fst).Nodup := nodup_dictOf _
  have hnmnd : ((nmOf req).map Prod.fst).Nodup := nodup_dictOf _
  have hoidlt : oid < s.nextOrderId := ho (oid, row) (mem_of_aget hrow)
  have hstock : ∀ p, stockOf (updatedState s oid req row total) p
      = stockOf s p - (newQof req p - oldQof s oid p) := fun p => updProds_aget hval p
  have hres : ∀ p, reservedIn (updatedState s oid req row total).orderLines p
      = reservedIn s.orderLines p - oldQof s oid p + newQof req p := by
    intro p
    rw [updatedState_orderLines, reservedIn_append]
    unfold newLinesOf
    rw [reservedIn_mapLines, ← newQof_eq_sumAt ⟨hrnd, hrq⟩ p,
      oldQof_eq_reservedIn hpw oid p]
    have hsplit := reservedIn_split_oid s.orderLines oid p
    unfold linesFor
    omega
  have hprov : ∀ p, provisioned (updatedState s oid req row total) p = provisioned s p := by
    intro p
    unfold provisioned
    rw [hstock p, hres p]
    omega
  have hnn : ∀ p, 0 ≤ stockOf (updatedState s oid req row total) p := by
    intro p
    rw [hstock p]
    cases hsc : aget (scOf s oid req) p with
    | none =>
      have hqe : newQof req p = oldQof s oid p := scSpec_none_qty hemnd hnmnd hsc
      rw [hqe]
      have := hsnn p
      omega
    | some c =>
      obtain ⟨pr, hpr, hstk⟩ := validateChanges_ok hval (p, c) (mem_of_aget hsc)
      have hspec : scSpec (emOf s oid) (nmOf req) p = some c := by
        rw [← aget_stockChangesOf hemnd hnmnd]
        exact hsc
      have hsp : stockOf s p = pr.stock := by
        unfold stockOf
        rw [hpr]
        rfl
      have hsnnp := hsnn p
      rcases scSpec_some_cases hspec with ⟨hsome, hcase⟩ | ⟨hnone, hnm⟩
      · rcases hcase with ⟨hlt, rfl⟩ | ⟨hlt, rfl⟩
        · unfold newQof oldQof
          omega
        · have h5 := hstk (by omega)
          unfold newQof oldQof
          omega
      · unfold newQof oldQof
        rw [hnone, hnm]
        simp only [Option.getD_none, Option.getD_some]
        by_cases hc : 0 < c
        · have h5 := hstk hc
          omega
        · omega
  refine ⟨hprov, ?_, ?_, ?_, ?_, ?_, ?_⟩
  · intro l hlm
    rw [updatedState_orderLines] at hlm
    rcases List.mem_append.mp hlm with hold | hnew
    · have hold2 : l ∈ s.orderLines := (List.mem_filter.mp hold).1
      obtain ⟨he, hq, hb⟩ := hl l hold2
      refine ⟨?_, hq, ?_⟩
      · rw [updatedState_products]
        unfold updProds
        rw [isSome_aget_applyDeltas]
        exact he
      · rw [updatedState_nextOrderId]
        exact hb
    · obtain ⟨i, hi, rfl⟩ := List.mem_map.mp hnew
      refine ⟨?_, hrq i hi, ?_⟩
      · rw [updatedState_products]
        exact recomputeTotal_ok ht i hi
      · rw [updatedState_nextOrderId]
        exact hoidlt
  · intro kv hkv
    rw [updatedState_orders] at hkv
    rw [updatedState_nextOrderId]
    obtain ⟨kv0, hkv0, hkeq⟩ := List.mem_map.mp hkv
    by_cases h0 : kv0.1 = oid
    · rw [if_pos h0] at hkeq
      rw [← hkeq]
      exact hoidlt
    · rw [if_neg h0] at hkeq
      rw [← hkeq]
      exact ho kv0 hkv0
  · rw [updatedState_orderLines, List.pairwise_append]
    refine ⟨hpw.filter _, ?_, ?_⟩
    · exact (pairwise_of_nodup_map hrnd).map _ fun a b hab => fun _ => hab
    · intro a ha b hb
      obtain ⟨i, hi, rfl⟩ := List.mem_map.mp hb
      intro heq
      exfalso
      have ha2 : ¬ a.order_id = oid := by
        have := (List.mem_filter.mp ha).2
        simpa using this
      simp only at heq
      exact ha2 heq
  · intro kv hkv
    have hget : aget (updatedState s oid req row total).products kv.1 = some kv.2 := by
      apply aget_of_mem_nodup ?_ hkv
      rw [updatedState_products]
      unfold updProds
      rw [fst_applyDeltas]
      exact hpnd
    have h2 := hnn kv.1
    unfold stockOf at h2
    rw [hget] at h2
    simpa using h2
  · rw [updatedState_products]
    unfold updProds
    rw [fst_applyDeltas]
    exact hpnd
  · rw [updatedState_orders, fst_map_replace]
    exact hond

theorem deletedState_products (s : DB) (oid : Nat) :
    (deletedState s oid).products
      = applyDeltas s.products ((linesFor s oid).map fun l => (l.product_id, l.quantity)) := rfl

theorem deletedState_orders (s : DB) (oid : Nat) :
    (deletedState s oid).orders = s.orders.filter fun kv => ¬ kv.1 = oid := rfl

theorem deletedState_orderLines (s : DB) (oid : Nat) :
    (deletedState s oid).orderLines = s.orderLines.filter fun l => ¬ l.order_id = oid := rfl

theorem deletedState_nextOrderId (s : DB) (oid : Nat) :
    (deletedState s oid).nextOrderId = s.nextOrderId := rfl

theorem deletedState_index (s : DB) (oid : Nat) :
    (deletedState s oid).index = s.index.filter fun kv => ¬ kv.1 = oid := rfl

theorem delete_preserves {s : DB} {oid : Nat} {s' : DB}
    (hwf : WF s) (h : crud_delete_order s oid = .ok s') :
    (∀ p, provisioned s' p = provisioned s p) ∧ WF s' := by
  obtain ⟨⟨row, hrow⟩, rfl⟩ := delete_ok_elim h
  obtain ⟨hl, ho, hpw, hsn, hpnd, hond⟩ := hwf
  have hqpos : ∀ kv ∈ (linesFor s oid).map fun l => (l.product_id, l.quantity),
      0 ≤ kv.2 := by
    intro kv hkv
    obtain ⟨l, hlm, rfl⟩ := List.mem_map.mp hkv
    exact (hl l (List.mem_filter.mp hlm).1).2.1
  have hprov : ∀ p, provisioned (deletedState s oid) p = provisioned s p := by
    intro p
    unfold provisioned stockOf
    rw [deletedState_products, deletedState_orderLines, aget_applyDeltas]
    have hsplit := reservedIn_split_oid s.orderLines oid p
    simp only [decide_not] at hsplit
    have hlf : reservedIn (s.orderLines.filter fun l => l.order_id = oid) p
        = sumAt ((linesFor s oid).map fun l => (l.product_id, l.quantity)) p := by
      rw [← reservedIn_eq_sumAt]
      rfl
    cases hp : aget s.products p with
    | none =>
      have hz : sumAt ((linesFor s oid).map fun l => (l.product_id, l.quantity)) p = 0 := by
        apply sumAt_eq_zero
        intro hmem
        rw [keys_map_pairs] at hmem
        obtain ⟨l, hlm, hleq⟩ := List.mem_map.mp hmem
        have := (hl l (List.mem_filter.mp hlm).1).1
        rw [hleq, hp] at this
        cases this
      rw [hz] at hlf
      simp
      omega
    | some pr =>
      simp
      omega
  have hnn : ∀ p, 0 ≤ stockOf (deletedState s oid) p := by
    intro p
    unfold stockOf
    rw [deletedState_products, aget_applyDeltas]
    cases hp : aget s.products p with
    | none => simp
    | some pr =>
      have h1 : 0 ≤ pr.stock := hsn (p, pr) (mem_of_aget hp)
      have h2 := sumAt_nonneg hqpos p
      simp
      omega
  refine ⟨hprov, ?_, ?_, ?_, ?_, ?_, ?_⟩
  · intro l hlm
    rw [deletedState_orderLines] at hlm
    have hold : l ∈ s.orderLines := (List.mem_filter.mp hlm).1
    obtain ⟨he, hq, hb⟩ := hl l hold
    refine ⟨?_, hq, hb⟩
    rw [deletedState_products, isSome_aget_applyDeltas]
    exact he
  · intro kv hkv
    rw [deletedState_orders] at hkv
    rw [deletedState_nextOrderId]
    exact ho kv (List.mem_filter.mp hkv).1
  · rw [deletedState_orderLines]
    exact hpw.filter _
  · intro kv hkv
    have hget : aget (deletedState s oid).products kv.1 = some kv.2 := by
      apply aget_of_mem_nodup ?_ hkv
      rw [deletedState_products, fst_applyDeltas]
      exact hpnd
    have h2 := hnn kv.1
    unfold stockOf at h2
    rw [hget] at h2
    simpa using h2
  · rw [deletedState_products, fst_applyDeltas]
    exact hpnd
  · rw [deletedState_orders]
    exact ((List.filter_sublist s.orders).map Prod.fst).nodup hond

theorem step_preserves {s s' : DB} (hst : Step s s') (hwf : WF s) :
    (∀ p, provisioned s' p = provisioned s p) ∧ WF s' := by
  cases hst with
  | create hwfr h => exact create_preserves hwfr hwf h
  | update hwfr h => exact update_preserves hwfr hwf h
  | delete h => exact delete_preserves hwf h

theorem stepSeq_preserves {s s' : DB} (hseq : StepSeq s s') (hwf : WF s) :
    (∀ p, provisioned s' p = provisioned s p) ∧ WF s' := by
  induction hseq with
  | refl => exact ⟨fun p => rfl, hwf⟩
  | tail _hab hstep ih =>
    obtain ⟨hp1, hwf1⟩ := ih
    obtain ⟨hp2, hwf2⟩ := step_preserves hstep hwf1
    exact ⟨fun p => (hp2 p).trans (hp1 p), hwf2⟩

theorem projMatches_of_indexed (s0 : DB) (row : OrderRow)
    (horder : aget s0.orders row.id = some row) :
    projMatches { s0 with index := index_order_in_meilisearch s0 row } row.id := by
  unfold projMatches
  have h1 : aget { s0 with index := index_order_in_meilisearch s0 row }.index row.id
      = some ⟨row.id, row.name, row.description, row.created_at, row.total_amount,
          (linesFor s0 row.id).map (docLineOf s0)⟩ := by
    show aget (index_order_in_meilisearch s0 row) row.id = _
    unfold index_order_in_meilisearch
    rw [aget_upsertDoc]
    simp
  have h2 : aget { s0 with index := index_order_in_meilisearch s0 row }.orders row.id
      = some row := horder
  simp only [h1, h2]
  exact ⟨trivial, trivial, trivial, trivial, rfl⟩

theorem validateAll_err {s : DB} {items : List OrderProductBase}
    (h : ∃ i ∈ items, badLine s i) :
    ∃ pid, (∃ i ∈ items, i.product_id = pid) ∧
      ((validateAll s items = .error (.productNotFound pid) ∧ aget s.products pid = none) ∨
        (validateAll s items = .error (.insufficientStock pid) ∧
          ∃ i ∈ items, i.product_id = pid ∧
            ∃ pr, aget s.products pid = some pr ∧ pr.stock < i.quantity)) := by
  induction items with
  | nil =>
    obtain ⟨i, hi, _⟩ := h
    simp at hi
  | cons x rest ih =>
    cases hx : aget s.products x.product_id with
    | none =>
      refine ⟨x.product_id, ⟨x, List.mem_cons_self x rest, rfl⟩, Or.inl ⟨?_, hx⟩⟩
      unfold validateAll
      simp only [hx]
    | some pr =>
      by_cases hst : pr.stock < x.quantity
      · refine ⟨x.product_id, ⟨x, List.mem_cons_self x rest, rfl⟩,
          Or.inr ⟨?_, x, List.mem_cons_self x rest, rfl, pr, hx, hst⟩⟩
        unfold validateAll
        simp only [hx]
        rw [if_pos hst]
      · have h2 : ∃ i ∈ rest, badLine s i := by
          obtain ⟨i, hi, hbad⟩ := h
          rcases List.mem_cons.mp hi with rfl | hi2
          · exfalso
            rcases hbad with hb1 | ⟨pr2, hb2, hb3⟩
            · rw [hx] at hb1
              cases hb1
            · rw [hx] at hb2
              injection hb2 with hb4
              subst hb4
              exact hst hb3
          · exact ⟨i, hi2, hbad⟩
        obtain ⟨pid, hmem, hcase⟩ := ih h2
        refine ⟨pid, ?_, ?_⟩
        · obtain ⟨i, hi2, hieq⟩ := hmem
          exact ⟨i, List.mem_cons_of_mem x hi2, hieq⟩
        · rcases hcase with ⟨herr, hnone⟩ | ⟨herr, i, hi2, hieq, pr2, hpr2, hstk⟩
          · refine Or.inl ⟨?_, hnone⟩
            unfold validateAll
            simp only [hx]
            rw [if_neg hst, herr]
            rfl
          · refine Or.inr ⟨?_, i, List.mem_cons_of_mem x hi2, hieq, pr2, hpr2, hstk⟩
            unfold validateAll
            simp only [hx]
            rw [if_neg hst, herr]
            rfl

theorem foldl_scStep1_noop (nm : List (Nat × Int)) :
    ∀ (em acc : List (Nat × Int)),
      (∀ kv ∈ em, (aget nm kv.1).getD 0 = kv.2) →
      em.foldl (scStep1 nm) acc = acc := by
  intro em
  induction em with
  | nil => intro acc _; rfl
  | cons kv t ih =>
    intro acc hcond
    have hkv := hcond kv (List.mem_cons_self kv t)
    have hstep : scStep1 nm acc kv = acc := by
      unfold scStep1
      rw [hkv]
      simp
    show t.foldl (scStep1 nm) (scStep1 nm acc kv) = acc
    rw [hstep]
    exact ih acc fun x hx => hcond x (List.mem_cons_of_mem kv hx)

theorem foldl_scStep2_noop (em : List (Nat × Int)) :
    ∀ (nm acc : List (Nat × Int)),
      (∀ kv ∈ nm, (aget em kv.1).isSome = true) →
      nm.foldl (scStep2 em) acc = acc := by
  intro nm
  induction nm with
  | nil => intro acc _; rfl
  | cons kv t ih =>
    intro acc hcond
    have hkv := hcond kv (List.mem_cons_self kv t)
    have hstep : scStep2 em acc kv = acc := by
      unfold scStep2
      rw [hkv]
      rfl
    show t.foldl (scStep2 em) (scStep2 em acc kv) = acc
    rw [hstep]
    exact ih acc fun x hx => hcond x (List.mem_cons_of_mem kv hx)

/-- C1 (counterexample to the claim as stated): from the well-formed state
`c1S` (product 1 has stock 4, no orders), one `crud_create_order` whose
request lists product 1 twice with quantity 3 each succeeds and leaves the
product's stock at `-2`: "stock never goes negative" fails on the code
because create validates every line against the untouched stock and only
then applies every decrement. -/
theorem c1_counterexample :
    WF c1S ∧ crud_create_order c1S c1Req 0 = .ok (c1Bad, 1) ∧
      stockOf c1Bad 1 = -2 ∧ stockOf c1Bad 1 < 0 :=
  ⟨by decide, by rfl, by decide, by decide⟩

/-- C1 (amended): across any sequence of create-order, update-order and
delete-order operations whose requests have pairwise-distinct product ids
and non-negative quantities, starting from a well-formed state, every
product's `stock + Σ(quantity of its lines across all live orders)` stays
constant and its stock never goes negative. -/
theorem c1_conservation {s s' : DB} (hseq : StepSeq s s') (hwf : WF s) :
    (∀ p, provisioned s' p = provisioned s p) ∧ ∀ p, 0 ≤ stockOf s' p := by
  obtain ⟨hp, hwf2⟩ := stepSeq_preserves hseq hwf
  exact ⟨hp, wf_stockOf_nonneg hwf2⟩

/-- Witness for C1: a single concrete create step from `cwS`. -/
theorem c1_conservation_witness :
    provisioned cwRes 1 = provisioned cwS 1 ∧ 0 ≤ stockOf cwRes 1 := by
  have hE : crud_create_order cwS cwReq 0 = .ok (cwRes, 1) := by rfl
  have hstep : Step cwS cwRes := Step.create (by decide) hE
  have h := c1_conservation (Relation.ReflTransGen.single hstep) (by decide)
  exact ⟨h.1 1, h.2 1⟩

/-- C2: on every successful update of order `oid` to line set `req`, each
product's stock moves by exactly `-(new_quantity - old_quantity)`, the
quantities being read from the Python dicts built over the union of the
old and the new line sets with absence as 0 — a positive difference is
consumed, a negative one restocked by the same magnitude. -/
theorem c2_update_delta {s : DB} {oid : Nat} {req : OrderBase} {s' : DB}
    (h : crud_update_order s oid req = .ok s') (p : Nat) :
    stockOf s' p = stockOf s p - (newQof req p - oldQof s oid p) :=
  update_stock h p

/-- Witness for C2: the spec's example, order lines going from
product1 x3 / product2 x2 to product1 x1 / product2 x5 / product3 x2:
product 1 is restocked by 2 (7 to 9), product 2 consumed by 3 (8 to 5),
product 3 consumed by 2 (10 to 8). -/
theorem c2_update_delta_witness :
    crud_update_order c2S 1 c2Req = .ok c2Res ∧
      stockOf c2Res 1 = 9 ∧ stockOf c2Res 2 = 5 ∧ stockOf c2Res 3 = 8 ∧
      stockOf c2Res 1 = stockOf c2S 1 - (newQof c2Req 1 - oldQof c2S 1 1) := by
  have hE : crud_update_order c2S 1 c2Req = .ok c2Res := by rfl
  exact ⟨hE, by decide, by decide, by decide, c2_update_delta hE 1⟩

/-- C3 (evidence of the code bug): order 1 consumes all 5 units of product
1; updating it down to 1 unit is a pure restock (new quantity 1 < old
quantity 5), yet `crud_update_order` raises InsufficientStock for product
1, because the `stock_changes` dict stores the unsigned magnitude 4 and
the validation `change > 0 and product.stock < change` therefore also
fires for restocks (stock 0 < 4). -/
theorem c3_restock_rejected :
    crud_create_order c3S c3Req1 0 = .ok (c3Mid, 1) ∧
      oldQof c3Mid 1 1 = 5 ∧ newQof c3Req2 1 = 1 ∧
      crud_update_order c3Mid 1 c3Req2 = .error (.insufficientStock 1) :=
  ⟨by rfl, by decide, by decide, by rfl⟩

/-- C4 (evidence of the code bug): in a successful create of one line for
product 1, the lock release event precedes the stock decrement event —
the lock is NOT held across the check-stock-then-decrement span, because
the decrement loop (crud.py lines 60-65) runs after the validation loop's
`finally: redis_client.delete(lock_key)` has already released every
lock. -/
theorem c4_early_release :
    create_order_trace c4S c4Req
      = [LockEvent.acquire 1, LockEvent.check_stock 1, LockEvent.release 1,
          LockEvent.decrement_stock 1] ∧
      exceptOk (crud_create_order c4S c4Req 0) = true :=
  ⟨by decide, by rfl⟩

/-- C5: whenever some requested line references a missing product or a
product whose stock is below the requested quantity, `crud_create_order`
returns an error naming an offending product.  The error is raised by the
validation loop before any mutation, so the returned error carries no new
state: no order row, no lines, and no stock change are committed — the
`Except`-shaped embedding makes "no state change on error" structural. -/
theorem c5_create_all_or_nothing {s : DB} {req : OrderBase} {ts : Nat}
    (h : ∃ i ∈ req.products, badLine s i) :
    ∃ pid, (∃ i ∈ req.products, i.product_id = pid) ∧
      ((crud_create_order s req ts = .error (.productNotFound pid) ∧
          aget s.products pid = none) ∨
        (crud_create_order s req ts = .error (.insufficientStock pid) ∧
          ∃ i ∈ req.products, i.product_id = pid ∧
            ∃ pr, aget s.products pid = some pr ∧ pr.stock < i.quantity)) := by
  obtain ⟨pid, hmem, hcase⟩ := validateAll_err h
  refine ⟨pid, hmem, ?_⟩
  rcases hcase with ⟨herr, hnone⟩ | ⟨herr, hrest⟩
  · refine Or.inl ⟨?_, hnone⟩
    unfold crud_create_order
    rw [herr]
  · refine Or.inr ⟨?_, hrest⟩
    unfold crud_create_order
    rw [herr]

/-- Witness for C5: product 1 covers its line but product 2 (stock 1)
cannot cover 5 units, so the whole create fails. -/
theorem c5_create_all_or_nothing_witness :
    exceptOk (crud_create_order c5S c5Req 0) = false := by
  have h : ∃ i ∈ c5Req.products, badLine c5S i :=
    ⟨⟨2, 5⟩, by decide, Or.inr ⟨⟨"B", none, 10, 1⟩, by rfl, by decide⟩⟩
  obtain ⟨pid, _, hcase⟩ := @c5_create_all_or_nothing c5S c5Req 0 h
  rcases hcase with ⟨herr, _⟩ | ⟨herr, _⟩ <;> rw [herr] <;> rfl

/-- C6: after a successful create or update the projection document stored
under the order's id agrees field by field with the ledger's current order
row and lines (name, description, total_amount, created_at, and per-line
product name/description/price/quantity); after a successful delete,
looking the order up in the projection returns NotFound.  The create part
assumes order keys below the auto-increment counter; the update part
assumes the stored row's id field equals its key, both facts of every
reachable state. -/
theorem c6_projection_convergence :
    (∀ (s : DB) (req : OrderBase) (ts : Nat) (s' : DB) (oid : Nat),
        (∀ kv ∈ s.orders, kv.1 < s.nextOrderId) →
        crud_create_order s req ts = .ok (s', oid) → projMatches s' oid) ∧
    (∀ (s : DB) (oid : Nat) (req : OrderBase) (s' : DB) (row : OrderRow),
        aget s.orders oid = some row → row.id = oid →
        crud_update_order s oid req = .ok s' → projMatches s' oid) ∧
    (∀ (s : DB) (oid : Nat) (s' : DB),
        crud_delete_order s oid = .ok s' →
        crud_get_order_by_id s' oid = .error .orderNotFound) := by
  refine ⟨?_, ?_, ?_⟩
  · intro s req ts s' oid ho h
    obtain ⟨total, hv, rfl, rfl⟩ := create_ok_elim h
    have horder : aget (createdCore s req ts total).orders s.nextOrderId
        = some ⟨s.nextOrderId, req.name, req.description, ts, total⟩ := by
      have heq : (createdCore s req ts total).orders = s.orders
          ++ [(s.nextOrderId, ⟨s.nextOrderId, req.name, req.description, ts, total⟩)] := rfl
      rw [heq]
      exact aget_append_fresh _ fun kv hkv => Nat.ne_of_lt (ho kv hkv)
    exact projMatches_of_indexed (createdCore s req ts total)
      ⟨s.nextOrderId, req.name, req.description, ts, total⟩ horder
  · intro s oid req s' row hrow hid h
    obtain ⟨row2, total, hrow2, hval, ht, rfl⟩ := update_ok_elim h
    rw [hrow] at hrow2
    injection hrow2 with hr
    subst hr
    have horder : aget (updatedCore s oid req row total).orders oid
        = some (updRow req row total) := by
      have heq : (updatedCore s oid req row total).orders
          = s.orders.map fun kv => if kv.1 = oid then (oid, updRow req row total) else kv := rfl
      rw [heq, aget_map_replace, hrow]
      rfl
    have horder2 : aget (updatedCore s oid req row total).orders (updRow req row total).id
        = some (updRow req row total) := by
      have h3 : (updRow req row total).id = oid := hid
      rw [h3]
      exact horder
    have happ := projMatches_of_indexed (updatedCore s oid req row total)
      (updRow req row total) horder2
    have happ2 : projMatches (updatedState s oid req row total) row.id := happ
    exact hid ▸ happ2
  · intro s oid s' h
    obtain ⟨hex, rfl⟩ := delete_ok_elim h
    unfold crud_get_order_by_id
    have hnone : aget (deletedState s oid).index oid = none := by
      rw [deletedState_index]
      exact aget_filter_ne _ _
    rw [hnone]

/-- Witness for C6: a concrete create, a concrete update and a concrete
delete, each checked against the projection. -/
theorem c6_projection_convergence_witness :
    projMatches cwRes 1 ∧ projMatches c2Res 1 ∧
      crud_get_order_by_id (deleteRes cwRes 1) 1 = .error .orderNotFound := by
  have h1 : crud_create_order cwS cwReq 0 = .ok (cwRes, 1) := by rfl
  have h2 : crud_update_order c2S 1 c2Req = .ok c2Res := by rfl
  have h3 : crud_delete_order cwRes 1 = .ok (deleteRes cwRes 1) := by rfl
  exact ⟨c6_projection_convergence.1 cwS cwReq 0 cwRes 1 (by decide) h1,
    c6_projection_convergence.2.1 c2S 1 c2Req c2Res ⟨1, "o", none, 0, 50⟩ (by rfl) rfl h2,
    c6_projection_convergence.2.2 cwRes 1 (deleteRes cwRes 1) h3⟩

/-- C7: deleting an order immediately after creating it, with no
intervening operations, succeeds and restores every product row — in
particular every stock — to exactly its pre-create value, and removes the
order row, all its lines, and its projection document.  The two freshness
hypotheses (order keys and line order-ids below the counter) hold in every
reachable state. -/
theorem c7_delete_reverses_create {s : DB} {req : OrderBase} {ts : Nat} {s' : DB} {oid : Nat}
    (ho : ∀ kv ∈ s.orders, kv.1 < s.nextOrderId)
    (hlb : ∀ l ∈ s.orderLines, l.order_id < s.nextOrderId)
    (h : crud_create_order s req ts = .ok (s', oid)) :
    ∃ s2, crud_delete_order s' oid = .ok s2 ∧
      (∀ p, aget s2.products p = aget s.products p) ∧
      aget s2.orders oid = none ∧ linesFor s2 oid = [] ∧
      aget s2.index oid = none := by
  obtain ⟨total, hv, rfl, rfl⟩ := create_ok_elim h
  have horder : aget (createdState s req ts total).orders s.nextOrderId
      = some ⟨s.nextOrderId, req.name, req.description, ts, total⟩ := by
    rw [createdState_orders]
    exact aget_append_fresh _ fun kv hkv => Nat.ne_of_lt (ho kv hkv)
  refine ⟨deletedState (createdState s req ts total) s.nextOrderId,
    delete_succeeds horder, ?_, ?_, linesFor_deleted _ _, ?_⟩
  · intro p
    have hpos : (newLinesOf s.nextOrderId req).map (fun l => (l.product_id, l.quantity))
        = req.products.map fun i => (i.product_id, i.quantity) := by
      unfold newLinesOf
      simp [List.map_map, Function.comp]
    rw [deletedState_products, linesFor_created s req ts total hlb, hpos,
      createdState_products, aget_applyDeltas, aget_applyDeltas]
    simp only [sumAt_map_negQty]
    cases hp : aget s.products p with
    | none => simp
    | some pr =>
      rcases pr with ⟨a, b, c, st⟩
      simp
      try omega
  · rw [deletedState_orders]
    exact aget_filter_ne _ _
  · rw [deletedState_index]
    exact aget_filter_ne _ _

/-- Witness for C7: create an order on products 1 and 2 and delete it at
once; stocks return to 5 and 7 and every trace of the order is gone. -/
theorem c7_delete_reverses_create_witness :
    crud_delete_order c7s1 1 = .ok c7s2 ∧
      aget c7s2.products 1 = aget c7S.products 1 ∧
      aget c7s2.products 2 = aget c7S.products 2 ∧
      aget c7s2.orders 1 = none ∧ linesFor c7s2 1 = [] ∧
      aget c7s2.index 1 = none := by
  have hE : crud_create_order c7S c7Req 0 = .ok (c7s1, 1) := by rfl
  obtain ⟨s2, hd, hp, ho2, hl2, hi2⟩ :=
    c7_delete_reverses_create (by decide) (by decide) hE
  have hs2 : c7s2 = s2 := by
    unfold c7s2 deleteRes
    rw [hd]
  rw [hs2]
  exact ⟨hd, hp 1, hp 2, ho2, hl2, hi2⟩

/-- C8: updating an order with a line set identical to its current one is
a no-op on stock and total: the `stock_changes` dict comes out empty, so
no stock moves, and the recomputed total equals the stored one whenever
the stored total is the sum of `price * quantity` over the (unchanged)
lines at the (immutable) current prices — which holds in every reachable
state, since both create and update store exactly that sum. -/
theorem c8_noop_update {s : DB} {oid : Nat} {req : OrderBase} {row : OrderRow}
    (hrow : aget s.orders oid = some row)
    (hsame : (linesFor s oid).map (fun l => (l.product_id, l.quantity))
      = req.products.map fun i => (i.product_id, i.quantity))
    (hex : ∀ i ∈ req.products, (aget s.products i.product_id).isSome = true)
    (htot : row.total_amount = reqTotal s.products req.products) :
    ∃ s', crud_update_order s oid req = .ok s' ∧
      (∀ p, stockOf s' p = stockOf s p) ∧
      (aget s'.orders oid).map OrderRow.total_amount = some row.total_amount := by
  have hemnm : emOf s oid = nmOf req := by
    unfold emOf nmOf
    rw [hsame]
  have hemnd : ((emOf s oid).map Prod.fst).Nodup := nodup_dictOf _
  have hsc : scOf s oid req = [] := by
    unfold scOf stockChangesOf
    have h1 : (emOf s oid).foldl (scStep1 (nmOf req)) [] = [] := by
      apply foldl_scStep1_noop
      intro kv hkv
      have h2 := aget_of_mem_nodup hemnd hkv
      rw [← hemnm, h2]
      rfl
    have h2 : (nmOf req).foldl (scStep2 (emOf s oid)) [] = [] := by
      apply foldl_scStep2_noop
      intro kv hkv
      have hkv2 : kv ∈ emOf s oid := by
        rw [hemnm]
        exact hkv
      rw [aget_of_mem_nodup hemnd hkv2]
      rfl
    rw [h1]
    exact h2
  have hupd : updProds s oid req = s.products := by
    unfold updProds
    rw [hsc]
    rfl
  have hrt : recomputeTotal (updProds s oid req) req.products
      = some (reqTotal s.products req.products) := by
    rw [hupd]
    exact recomputeTotal_eq hex
  have hval : validateChanges s (scOf s oid req) = .ok () := by
    rw [hsc]
    rfl
  have hres : crud_update_order s oid req
      = .ok (updatedState s oid req row (reqTotal s.products req.products)) := by
    unfold crud_update_order
    simp only [hrow, hval, hrt]
  refine ⟨_, hres, ?_, ?_⟩
  · intro p
    rw [update_stock hres p]
    have hqe : newQof req p = oldQof s oid p := by
      unfold newQof oldQof
      rw [hemnm]
    rw [hqe]
    ring
  · have h2 : aget (updatedState s oid req row
        (reqTotal s.products req.products)).orders oid
        = some (updRow req row (reqTotal s.products req.products)) := by
      have heq : (updatedState s oid req row (reqTotal s.products req.products)).orders
          = s.orders.map fun kv =>
              if kv.1 = oid then (oid, updRow req row (reqTotal s.products req.products))
              else kv := rfl
      rw [heq, aget_map_replace, hrow]
      rfl
    rw [h2]
    show some (reqTotal s.products req.products) = some row.total_amount
    rw [htot]

/-- Witness for C8: re-submitting the stored line set (product 1 x3,
product 2 x2) of order 1 in `c2S` leaves both stocks and the total 50
unchanged. -/
theorem c8_noop_update_witness :
    exceptOk (crud_update_order c2S 1 c8Req) = true ∧
      stockOf c8Res 1 = stockOf c2S 1 ∧ stockOf c8Res 2 = stockOf c2S 2 ∧
      (aget c8Res.orders 1).map OrderRow.total_amount = some 50 := by
  have htot : (⟨1, "o", none, 0, 50⟩ : OrderRow).total_amount
      = reqTotal c2S.products c8Req.products := by
    show (50 : Rat) = 10 * (3 : Int) + (10 * (2 : Int) + 0)
    norm_num
  obtain ⟨s', hE, hst, htot2⟩ :=
    @c8_noop_update c2S 1 c8Req ⟨1, "o", none, 0, 50⟩ (by rfl) (by decide) (by decide) htot
  have hs : c8Res = s' := by
    unfold c8Res updateRes
    rw [hE]
  rw [hs]
  refine ⟨by rw [hE]; rfl, hst 1, hst 2, ?_⟩
  rw [htot2]

/-- C9 (counterexample to the claim as stated): nothing rejects a
zero-quantity line; creating an order with the single line
product 1 x0 from the well-formed state `c9S` succeeds and persists the
order line ⟨order 1, product 1, quantity 0⟩. -/
theorem c9_counterexample :
    WF c9S ∧ crud_create_order c9S c9Req 0 = .ok (c9Bad, 1) ∧
      c9Bad.orderLines = [⟨1, 1, 0⟩] :=
  ⟨by decide, by rfl, by decide⟩

/-- C9 (amended): the lines persisted for an order by create and by update
are exactly the requested lines with their quantities copied verbatim
(`newLinesOf`); consequently every persisted line has positive quantity
precisely when every requested quantity is positive — the code itself
never rejects a non-positive quantity. -/
theorem c9_lines_verbatim :
    (∀ (s : DB) (req : OrderBase) (ts : Nat) (s' : DB) (oid : Nat),
        (∀ l ∈ s.orderLines, l.order_id < s.nextOrderId) →
        crud_create_order s req ts = .ok (s', oid) →
        linesFor s' oid = newLinesOf oid req) ∧
    (∀ (s : DB) (oid : Nat) (req : OrderBase) (s' : DB),
        crud_update_order s oid req = .ok s' →
        linesFor s' oid = newLinesOf oid req) ∧
    (∀ (oid : Nat) (req : OrderBase),
        (∀ i ∈ req.products, 0 < i.quantity) →
        ∀ l ∈ newLinesOf oid req, 0 < l.quantity) := by
  refine ⟨?_, ?_, ?_⟩
  · intro s req ts s' oid hlb h
    obtain ⟨total, hv, rfl, rfl⟩ := create_ok_elim h
    exact linesFor_created s req ts total hlb
  · intro s oid req s' h
    obtain ⟨row, total, hrow, hval, ht, rfl⟩ := update_ok_elim h
    exact linesFor_updated s oid req row total
  · intro oid req hq l hl
    obtain ⟨i, hi, rfl⟩ := List.mem_map.mp hl
    exact hq i hi

/-- Witness for C9 (amended): the concrete create from `cwS` stores
exactly the requested line, and its positive quantity is certified through
the theorem's third part. -/
theorem c9_lines_verbatim_witness :
    linesFor cwRes 1 = [⟨1, 1, 2⟩] ∧ (0 : Int) < (⟨1, 1, 2⟩ : OrderLine).quantity := by
  have hE : crud_create_order cwS cwReq 0 = .ok (cwRes, 1) := by rfl
  have h1 := c9_lines_verbatim.1 cwS cwReq 0 cwRes 1 (by decide) hE
  refine ⟨h1.trans (by decide), ?_⟩
  exact c9_lines_verbatim.2.2 1 cwReq (by decide) ⟨1, 1, 2⟩ (by decide)

/-- C10: deleting an existing order succeeds even when a line references a
product id with no product row: that line's restock is silently skipped
(the missing product stays missing, nothing is raised), every line whose
product row exists is restocked by its quantity, and the order row, its
lines and its projection document are all removed. -/
theorem c10_delete_skips_missing {s : DB} {oid : Nat} {row : OrderRow}
    (h : aget s.orders oid = some row) :
    crud_delete_order s oid = .ok (deletedState s oid) ∧
      aget (deletedState s oid).orders oid = none ∧
      linesFor (deletedState s oid) oid = [] ∧
      aget (deletedState s oid).index oid = none ∧
      (∀ p, aget s.products p = none → aget (deletedState s oid).products p = none) ∧
      (∀ p pr, aget s.products p = some pr →
        aget (deletedState s oid).products p
          = some { pr with stock := pr.stock + sumAt ((linesFor s oid).map fun l => (l.product_id, l.quantity)) p }) := by
  refine ⟨delete_succeeds h, ?_, linesFor_deleted s oid, ?_, ?_, ?_⟩
  · rw [deletedState_orders]
    exact aget_filter_ne _ _
  · rw [deletedState_index]
    exact aget_filter_ne _ _
  · intro p hp
    rw [deletedState_products, aget_applyDeltas, hp]
    rfl
  · intro p pr hp
    rw [deletedState_products, aget_applyDeltas, hp]
    rfl

/-- Witness for C10: order 1 of `c10S` holds lines for product 1 (stock 5,
restocked to 7) and the missing product 9 (silently skipped); the delete
succeeds and removes the order. -/
theorem c10_delete_skips_missing_witness :
    crud_delete_order c10S 1 = .ok (deletedState c10S 1) ∧
      aget (deletedState c10S 1).products 9 = none ∧
      (aget (deletedState c10S 1).products 1).map Product.stock = some 7 ∧
      aget (deletedState c10S 1).orders 1 = none ∧
      aget (deletedState c10S 1).index 1 = none := by
  obtain ⟨hd, ho2, hl2, hi2, hmiss, hsome⟩ :=
    @c10_delete_skips_missing c10S 1 ⟨1, "o", none, 0, 50⟩ (by rfl)
  exact ⟨hd, hmiss 9 (by rfl), by rw [hsome 1 ⟨"A", none, 10, 5⟩ (by rfl)]; decide,
    ho2, hi2⟩
